import Mathlib

/-!
Verification of the chunked, resumable audiobook synthesis pipeline.

Shallow embedding of the core of the repository:
  * `audiobook_backend/chunking.py`  (text chunking with chapter tracking)
  * `audiobook_backend/job.py`       (checkpoint configuration fingerprint)
  * `audiobook_backend/runtime.py`   (device / pipeline-mode resolution)
  * `audiobook_backend/pipeline.py`  (sequential and overlapped runners)
  * `audiobook_backend/cleanup.py` and the `finally` block of `app.py` `main`

Python strings are modelled as `List Char`; machine integers of audio
samples are modelled as `Int`; fallible code returns `Except` / `Option`.
-/

/-! ## Characters and Python string helpers -/

/-- Whitespace test used by Python `str.strip` and the regex class `\s`. -/
def isSpc (c : Char) : Bool := c.isWhitespace

/-- Python `str.strip()`: drop leading and trailing whitespace. -/
def pstrip (l : List Char) : List Char :=
  (l.dropWhile isSpc).rdropWhile isSpc

/-- Sentence-final punctuation recognized by the lookbehind `(?<=[.!?])`. -/
def isPunctSO (c : Char) : Bool := c == '.' || c == '!' || c == '?'

/-- Worker for `re.split(r"(?<=[.!?])\s+", s)`: a separator is a maximal
whitespace run whose first character is preceded by `.`, `!` or `?`.  `acc`
holds the current piece reversed, so `acc.head?` is the previously consumed
character; `inSep` records that the scanner is inside a separator run (so
further whitespace extends the separator instead of starting a piece). -/
def sentence_split_go (s : List Char) (acc : List Char) (inSep : Bool) :
    List (List Char) :=
  match s with
  | [] => [acc.reverse]
  | c :: rest =>
    if inSep then
      if isSpc c then sentence_split_go rest acc true
      else sentence_split_go rest (c :: acc) false
    else if isSpc c && acc.head?.elim false isPunctSO then
      acc.reverse :: sentence_split_go rest [] true
    else sentence_split_go rest (c :: acc) false

/-- `re.split(r"(?<=[.!?])\s+", s)` from `split_oversized_paragraph`. -/
def sentence_split (s : List Char) : List (List Char) :=
  sentence_split_go s [] false

/-- Worker for `re.split(r"\n+", s)`: split on maximal runs of newlines
(`inSep` records that the scanner is inside a newline run). -/
def nl_split_go (s : List Char) (acc : List Char) (inSep : Bool) :
    List (List Char) :=
  match s with
  | [] => [acc.reverse]
  | c :: rest =>
    if c == '\n' then
      if inSep then nl_split_go rest acc true
      else acc.reverse :: nl_split_go rest [] true
    else nl_split_go rest (c :: acc) false

/-- The paragraph list of one chapter:
`[p.strip() for p in re.split(r"\n+", text) if p.strip()]`. -/
def chapter_paragraphs (text : List Char) : List (List Char) :=
  ((nl_split_go text [] false).map pstrip).filter (fun p => !p.isEmpty)

/-! ## `split_oversized_paragraph` -/

/-- Worker for the hard character split: `acc` is the current slice
reversed and `k` the number of characters it may still take before the next
slice boundary. -/
def hs_go (cc : ℕ) : List Char → List Char → ℕ → List (List Char)
  | [], acc, _ => if acc.isEmpty then [] else [acc.reverse]
  | c :: rest, acc, 0 => acc.reverse :: hs_go cc rest [c] (cc - 1)
  | c :: rest, acc, k + 1 => hs_go cc rest (c :: acc) k

/-- The Python hard character split
`[sentence[start:start+chunk_chars] for start in range(0, len(sentence), chunk_chars)]`:
the consecutive slices of `s` of length `cc` (the last possibly shorter).
For `cc = 0` Python raises `ValueError`; that case is unreachable for the
positive `chunk_chars` the program uses, and is given the value `[]`. -/
def hard_split (cc : ℕ) (s : List Char) : List (List Char) :=
  if cc = 0 then [] else hs_go cc s [] cc

/-- `pieces.append(buffer)` guarded by `if buffer:`. -/
def appendIfNonempty (pieces : List (List Char)) (buf : List Char) :
    List (List Char) :=
  if buf.isEmpty then pieces else pieces ++ [buf]

/-- One iteration of the `for sentence in sentences:` loop of
`split_oversized_paragraph`.  State: `(pieces, sentence_buffer)`. -/
def so_step (cc : ℕ) (st : List (List Char) × List Char)
    (sentRaw : List Char) : List (List Char) × List Char :=
  let sentence := pstrip sentRaw
  if sentence.isEmpty then st
  else if cc < sentence.length then
    (appendIfNonempty st.1 st.2 ++ hard_split cc sentence, [])
  else
    let candidate := pstrip (st.2 ++ ' ' :: sentence)
    if candidate.length ≤ cc then (st.1, candidate)
    else (appendIfNonempty st.1 st.2, sentence)

/-- The sentence loop of `split_oversized_paragraph`. -/
def so_loop (cc : ℕ) : List (List Char) → List (List Char) × List Char →
    List (List Char) × List Char
  | [], st => st
  | s :: rest, st => so_loop cc rest (so_step cc st s)

/-- `split_oversized_paragraph` from `chunking.py`. -/
def split_oversized_paragraph (cc : ℕ) (paragraph : List Char) :
    List (List Char) :=
  if paragraph.length ≤ cc then [paragraph]
  else
    let st := so_loop cc (sentence_split paragraph) ([], [])
    let pieces := appendIfNonempty st.1 st.2
    if pieces.isEmpty then [paragraph] else pieces

/-! ## `split_text_to_chunks` -/

/-- A produced chunk: `TextChunk(chapter_title, text)`. -/
structure TextChunk where
  chapter_title : List Char
  text : List Char
deriving DecidableEq, Repr

/-- One iteration of the `for piece in split_oversized_paragraph(paragraph):`
loop.  State: `(chunks, buffer)`; the buffer persists across paragraphs of a
chapter. -/
def bc_step (cc : ℕ) (title : List Char) (st : List TextChunk × List Char)
    (piece : List Char) : List TextChunk × List Char :=
  if st.2.length + piece.length + 1 ≤ cc then
    (st.1, pstrip (st.2 ++ ' ' :: piece))
  else
    ((if st.2.isEmpty then st.1 else st.1 ++ [⟨title, st.2⟩]), piece)

/-- The piece loop of one chapter's body in `split_text_to_chunks`. -/
def bc_loop (cc : ℕ) (title : List Char) :
    List (List Char) → List TextChunk × List Char → List TextChunk × List Char
  | [], st => st
  | p :: rest, st => bc_loop cc title rest (bc_step cc title st p)

/-- The chunks one chapter contributes in `split_text_to_chunks`
(fresh buffer per chapter, trailing buffer flushed at the end). -/
def chapter_chunks (cc : ℕ) (title text : List Char) : List TextChunk :=
  let pieces :=
    ((chapter_paragraphs text).map (split_oversized_paragraph cc)).flatten
  let st := bc_loop cc title pieces ([], [])
  if st.2.isEmpty then st.1 else st.1 ++ [⟨title, st.2⟩]

/-- One iteration of the chapter loop of `split_text_to_chunks`.
State: `(chunks, chapter_start_indices)`. -/
def stc_step (cc : ℕ) (st : List TextChunk × List (ℕ × List Char))
    (chapter : List Char × List Char) :
    List TextChunk × List (ℕ × List Char) :=
  if (chapter_paragraphs chapter.2).isEmpty then st
  else
    (st.1 ++ chapter_chunks cc chapter.1 chapter.2,
     st.2 ++ [(st.1.length, chapter.1)])

/-- The chapter loop of `split_text_to_chunks`. -/
def stc_loop (cc : ℕ) :
    List (List Char × List Char) → List TextChunk × List (ℕ × List Char) →
    List TextChunk × List (ℕ × List Char)
  | [], st => st
  | ch :: rest, st => stc_loop cc rest (stc_step cc st ch)

/-- `split_text_to_chunks(chapters, chunk_chars)` from `chunking.py`;
a chapter is its `(title, text)` pair. -/
def split_text_to_chunks (chapters : List (List Char × List Char))
    (cc : ℕ) : List TextChunk × List (ℕ × List Char) :=
  stc_loop cc chapters ([], [])

/-- Joining a list of strings with one interposed space per join
(the join the chunk buffer performs). -/
def joinSp : List (List Char) → List Char
  | [] => []
  | [x] => x
  | x :: y :: xs => x ++ ' ' :: joinSp (y :: xs)

/-- The chapter's cleaned text: its non-empty stripped paragraphs joined by
single spaces (the cleaning `split_text_to_chunks` applies to a chapter). -/
def chapter_cleaned (text : List Char) : List Char :=
  joinSp (chapter_paragraphs text)

/-! ## `runtime.py`: device and pipeline-mode resolution -/

/-- `resolve_device_for_args(args, resolved_backend)` from `runtime.py`,
parameterised by the host profile probes `is_low_memory_apple_host()` and
`is_apple_silicon_host()`.  Returns the resolved device and the warnings. -/
def resolve_device_for_args (requestedDevice : String)
    (lowMem appleSilicon : Bool) (resolvedBackend : String) :
    String × List String :=
  if resolvedBackend = "mlx" then
    ("mlx", if requestedDevice ≠ "auto"
            then ["--device is ignored for MLX backend."] else [])
  else if resolvedBackend = "mock" then
    ("cpu", if requestedDevice ≠ "auto"
            then ["--device is ignored for mock backend."] else [])
  else if requestedDevice = "auto" then
    (if lowMem then "cpu" else if appleSilicon then "mps" else "auto", [])
  else (requestedDevice, [])

/-- `default_pipeline_mode(output_format, use_checkpoint)` from `runtime.py`. -/
def default_pipeline_mode (_outputFormat : String) (_useCheckpoint : Bool) :
    String := "sequential"

/-- The warning `resolve_pipeline_mode_for_args` records when coercing. -/
def overlap3Warning : String :=
  "--pipeline_mode=overlap3 is currently supported only for MP3 " ++
  "without checkpointing; falling back to sequential."

/-- `resolve_pipeline_mode_for_args(args, use_checkpoint)` from `runtime.py`.
`args.pipeline_mode` is `None` when the flag is absent (`Option`); Python's
`or` then falls back to `default_pipeline_mode`. -/
def resolve_pipeline_mode_for_args (pipelineModeArg : Option String)
    (outputFormat : String) (useCheckpoint : Bool) : String × List String :=
  let requested :=
    pipelineModeArg.getD (default_pipeline_mode outputFormat useCheckpoint)
  if requested = "overlap3" ∧ (outputFormat ≠ "mp3" ∨ useCheckpoint = true) then
    ("sequential", [overlap3Warning])
  else (requested, [])

/-! ## `job.py`: the checkpoint configuration fingerprint -/

/-- The resolved per-run configuration fields that feed
`build_checkpoint_config` (speed is a float in Python, modelled as `ℚ`). -/
structure RunConfig where
  voice : String
  speed : ℚ
  lang_code : String
  backend : String
  device : String
  chunk_chars : ℕ
  split_pattern : String
  format : String
  bitrate : String
  normalize : Bool
deriving DecidableEq, Repr

/-- The fingerprint dictionary built by `build_checkpoint_config`. -/
structure CheckpointConfig where
  voice : String
  speed : ℚ
  lang_code : String
  backend : String
  device : String
  chunk_chars : ℕ
  split_pattern : String
  format : String
  bitrate : String
  normalize : Bool
deriving DecidableEq, Repr

/-- `build_checkpoint_config(args, resolved_backend, chunk_chars,
resolved_device)` from `job.py`: all fields copied verbatim, except the
device entry which is `resolved_device` only for the `pytorch` backend and
the literal `"auto"` otherwise. -/
def build_checkpoint_config (r : RunConfig) : CheckpointConfig :=
  { voice := r.voice
    speed := r.speed
    lang_code := r.lang_code
    backend := r.backend
    device := if r.backend = "pytorch" then r.device else "auto"
    chunk_chars := r.chunk_chars
    split_pattern := r.split_pattern
    format := r.format
    bitrate := r.bitrate
    normalize := r.normalize }

/-- Number of fingerprint fields in which two run configurations differ. -/
def diffCount (a b : RunConfig) : ℕ :=
  (if a.voice = b.voice then 0 else 1) +
  (if a.speed = b.speed then 0 else 1) +
  (if a.lang_code = b.lang_code then 0 else 1) +
  (if a.backend = b.backend then 0 else 1) +
  (if a.device = b.device then 0 else 1) +
  (if a.chunk_chars = b.chunk_chars then 0 else 1) +
  (if a.split_pattern = b.split_pattern then 0 else 1) +
  (if a.format = b.format then 0 else 1) +
  (if a.bitrate = b.bitrate then 0 else 1) +
  (if a.normalize = b.normalize then 0 else 1)

/-- A run's device field is one actually produced by
`resolve_device_for_args` for its backend (some requested device and some
host profile). -/
def DeviceResolved (r : RunConfig) : Prop :=
  ∃ req lm ap, r.device = (resolve_device_for_args req lm ap r.backend).1

/-- The backends `resolve_backend` can return: an explicit CLI choice
(`pytorch`, `mlx`, `mock`) or the auto-detection result
(`pytorch` or `mlx`). -/
def BackendResolved (r : RunConfig) : Prop :=
  r.backend = "pytorch" ∨ r.backend = "mlx" ∨ r.backend = "mock"

/-! ## `cleanup.py` and the `finally` block of `app.py` `main` -/

/-- The optional TTS backend at cleanup time: whether one was created, and
whether its `cleanup()` raises. -/
structure BackendModel (E : Type) where
  present : Bool
  cleanupFail : Option E
deriving Repr

/-- `cleanup_backend(backend)` from `cleanup.py`: `None` backend is a no-op;
any exception from `backend.cleanup()` is caught and returned. -/
def cleanup_backend (E : Type) (b : BackendModel E) : Option E :=
  if b.present then b.cleanupFail else none

/-- Outcome of `proc.stdin.close()`: succeeded, raised an
`OSError`/`ValueError` (suppressed by the inner `except`), or raised
something else (caught by the outer `except` and returned). -/
inductive CloseOutcome (E : Type) where
  | closedOk
  | caught
  | raised (e : E)
deriving Repr

/-- Outcome of a `proc.wait(timeout=5)` call. -/
inductive WaitOutcome (E : Type) where
  | finished
  | timedOut
  | raised (e : E)
deriving Repr

/-- The ffmpeg muxer process at cleanup time. -/
structure FfmpegProcModel (E : Type) where
  stdinPresent : Bool
  closeOutcome : CloseOutcome E
  running : Bool
  waitOutcome : WaitOutcome E
  killFail : Option E
  wait2Outcome : WaitOutcome E
deriving Repr

/-- `cleanup_ffmpeg_process(proc)` from `cleanup.py`: close stdin
(`OSError`/`ValueError` suppressed), then if the process still runs wait,
kill on timeout, wait again, tolerating a second timeout; every other
exception is caught and returned. -/
def cleanup_ffmpeg_process (E : Type) (proc : Option (FfmpegProcModel E)) :
    Option E :=
  match proc with
  | none => none
  | some p =>
    match (if p.stdinPresent then p.closeOutcome else .closedOk) with
    | .raised e => some e
    | _ =>
      if p.running then
        match p.waitOutcome with
        | .finished => none
        | .raised e => some e
        | .timedOut =>
          match p.killFail with
          | some e => some e
          | none =>
            match p.wait2Outcome with
            | .finished => none
            | .timedOut => none
            | .raised e => some e
      else none

/-- Outcome of `os.remove(spool_path)`. -/
inductive RemoveOutcome (E : Type) where
  | removed
  | notFound
  | raised (e : E)
deriving Repr

/-- The spool file at cleanup time. -/
structure SpoolModel (E : Type) where
  onDisk : Bool
  removeOutcome : RemoveOutcome E
deriving Repr

/-- `cleanup_spool_path(spool_path)` from `cleanup.py`: a falsy path is a
no-op; `FileNotFoundError` is tolerated; other exceptions are caught and
returned. -/
def cleanup_spool_path (E : Type) (spool : Option (SpoolModel E)) :
    Option E :=
  match spool with
  | none => none
  | some s =>
    if s.onDisk then
      match s.removeOutcome with
      | .removed => none
      | .notFound => none
      | .raised e => some e
    else none

/-- Record of the three cleanup steps actually executed by `main`'s
`finally` block, in order. -/
structure CleanupRun (E : Type) where
  backendResult : Option E
  ffmpegResult : Option E
  spoolResult : Option E
deriving Repr

/-- The `finally` block of `main` in `app.py`: run all three cleanup steps
unconditionally in order, keep the first cleanup error, and propagate the
main error if there is one, otherwise the first cleanup error. -/
def main_finally (E : Type) (mainError : Option E) (b : BackendModel E)
    (f : Option (FfmpegProcModel E)) (s : Option (SpoolModel E)) :
    Option E × CleanupRun E :=
  let br := cleanup_backend E b
  let fr := cleanup_ffmpeg_process E f
  let sr := cleanup_spool_path E s
  let cleanupError := (br.orElse fun _ => fr.orElse fun _ => sr)
  (match mainError with
   | some e => some e
   | none => cleanupError,
   ⟨br, fr, sr⟩)

/-! ## `pipeline.py`: sequential runner

Audio buffers are abstract (`A`); `audio_to_int16` is the injected
`audio_to_int16_fn` parameter (`ℕ`-indexed chunks; int16 PCM is `List Int`).
The PCM sink (mp3 stream stdin or spool file) is modelled as one growing
sample list; wall-clock-dependent behaviour (heartbeat gating, elapsed
times) is supplied by oracles `hb` and `elapsed`. -/

/-- The buffers one `backend.generate(...)` call yields, in yield order,
followed by an optional raised exception. -/
structure GenOutcome (A E : Type) where
  yields : List A
  failure : Option E
deriving Repr

/-- The injected dependencies of `run_sequential_pipeline`:
`backend.generate` per chunk index, `load_chunk_audio_fn` (`inl` = already
int16, `inr` = raw audio that the dtype check converts), and
`audio_to_int16_fn`. -/
structure SeqEnv (A E : Type) where
  generate : ℕ → GenOutcome A E
  load : ℕ → Option (List Int ⊕ A)
  a2i : A → List Int

/-- Events the sequential runner emits (payloads reduced to the chunk
index / counters that parameterise them). -/
inductive SeqEv where
  | workerEncode (idx : ℕ)
  | workerInfer (idx : ℕ)
  | ckptReused (idx : ℕ)
  | ckptMissingAudio (idx : ℕ)
  | ckptSaved (idx : ℕ)
  | timingEv (idx : ℕ) (ms : ℕ)
  | progressEv (current total : ℕ)
  | heartbeatEv
deriving DecidableEq, Repr

/-- The mutable state of `run_sequential_pipeline`, together with ghost
traces of the injected effectful calls (`save_checkpoint_fn` snapshots,
`save_chunk_audio_fn` artifacts, `backend.generate` invocations). -/
structure SeqSt where
  offsets : List ℕ
  cumulative : ℕ
  sink : List Int
  completed : Finset ℕ
  times : List ℕ
  trace : List SeqEv
  savedCkpts : List (List ℕ)
  savedAudio : List (ℕ × List Int)
  generateCalls : List ℕ
  processedCount : ℕ

/-- End of one loop iteration: `processed_count += 1`, conditional
heartbeat, progress event. -/
def seq_finish (hb : ℕ → Bool) (total : ℕ) (st : SeqSt) (idx : ℕ) : SeqSt :=
  { st with
    processedCount := st.processedCount + 1
    trace := st.trace ++ (if hb idx then [.heartbeatEv] else []) ++
      [.progressEv (st.processedCount + 1) total] }

/-- The inference arm of one chunk iteration (`if not
reused_checkpoint_audio:`): emit the INFER worker event, stream each
converted buffer to the sink as it arrives, and on success record timing,
optionally persist the artifact, mark the chunk completed and persist the
checkpoint.  A raised generate exception aborts with the partial writes
kept. -/
def seq_infer (A E : Type) (env : SeqEnv A E) (useCk hasState : Bool)
    (elapsed : ℕ → ℕ) (st : SeqSt) (idx : ℕ) : SeqSt × Option E :=
  let g := env.generate idx
  let pcms := (g.yields.map env.a2i).flatten
  let st1 := { st with
    trace := st.trace ++ [.workerInfer idx]
    generateCalls := st.generateCalls ++ [idx]
    sink := st.sink ++ pcms
    cumulative := st.cumulative + pcms.length }
  match g.failure with
  | some e => (st1, some e)
  | none =>
    let st2 := { st1 with times := st1.times ++ [elapsed idx] }
    let st3 :=
      if useCk then
        let c' := insert idx st2.completed
        { st2 with
          savedAudio := st2.savedAudio ++ [(idx, pcms)]
          completed := c'
          savedCkpts := st2.savedCkpts ++
            (if hasState then [c'.sort (· ≤ ·)] else [])
          trace := st2.trace ++ [.ckptSaved idx] }
      else st2
    ({ st3 with trace := st3.trace ++ [.timingEv idx (elapsed idx)] }, none)

/-- One iteration of the chunk loop of `run_sequential_pipeline`: record
the chunk's starting sample offset, attempt checkpoint reuse when resuming,
self-heal a missing artifact, otherwise (or after healing) run inference. -/
def seq_chunk_step (A E : Type) (env : SeqEnv A E)
    (useCk resume hasState : Bool) (hb : ℕ → Bool) (elapsed : ℕ → ℕ)
    (total : ℕ) (st : SeqSt) (idx : ℕ) : SeqSt × Option E :=
  let st0 := { st with offsets := st.offsets.set idx st.cumulative }
  if useCk = true ∧ resume = true ∧ idx ∈ st0.completed then
    match env.load idx with
    | some la =>
      let pcm := match la with | .inl p => p | .inr a => env.a2i a
      let st1 := { st0 with
        sink := st0.sink ++ pcm
        cumulative := st0.cumulative + pcm.length
        trace := st0.trace ++ [.workerEncode idx, .ckptReused idx] }
      (seq_finish hb total st1 idx, none)
    | none =>
      let c' := st0.completed.erase idx
      let st1 := { st0 with
        completed := c'
        savedCkpts := st0.savedCkpts ++
          (if hasState then [c'.sort (· ≤ ·)] else [])
        trace := st0.trace ++ [.ckptMissingAudio idx] }
      match seq_infer A E env useCk hasState elapsed st1 idx with
      | (st2, some e) => (st2, some e)
      | (st2, none) => (seq_finish hb total st2 idx, none)
  else
    match seq_infer A E env useCk hasState elapsed st0 idx with
    | (st2, some e) => (st2, some e)
    | (st2, none) => (seq_finish hb total st2 idx, none)

/-- The chunk loop over the `n` remaining chunks starting at index `k`,
stopping at the first raised exception (the state is kept as the ghost
observation of the partial run). -/
def seq_go (A E : Type) (env : SeqEnv A E) (useCk resume hasState : Bool)
    (hb : ℕ → Bool) (elapsed : ℕ → ℕ) (total : ℕ) :
    ℕ → ℕ → SeqSt → SeqSt × Option E
  | 0, _, st => (st, none)
  | n + 1, k, st =>
    match seq_chunk_step A E env useCk resume hasState hb elapsed total st k
      with
    | (st', some e) => (st', some e)
    | (st', none) =>
      seq_go A E env useCk resume hasState hb elapsed total n (k + 1) st'

/-- The initial state of a sequential run over `N` chunks with the resumed
completed set `completed₀` (`chunk_sample_offsets = [0] * total_chunks`). -/
def seq_init (N : ℕ) (completed₀ : Finset ℕ) : SeqSt :=
  { offsets := List.replicate N 0
    cumulative := 0
    sink := []
    completed := completed₀
    times := []
    trace := []
    savedCkpts := []
    savedAudio := []
    generateCalls := []
    processedCount := 0 }

/-- `run_sequential_pipeline` from `pipeline.py` over `N` chunks. -/
def run_sequential_pipeline (A E : Type) (env : SeqEnv A E)
    (useCk resume hasState : Bool) (hb : ℕ → Bool) (elapsed : ℕ → ℕ)
    (N : ℕ) (completed₀ : Finset ℕ) : SeqSt × Option E :=
  seq_go A E env useCk resume hasState hb elapsed N N 0
    (seq_init N completed₀)

/-- The value `PipelineRunResult` is built from on normal return. -/
structure PipelineRunResult where
  chunk_sample_offsets : List ℕ
  total_samples : ℕ
  times : List ℕ
  completed_chunks : List ℕ
deriving Repr

/-- `PipelineRunResult(...)` built at the end of `run_sequential_pipeline`. -/
def seq_result (st : SeqSt) : PipelineRunResult :=
  ⟨st.offsets, st.cumulative, st.times, st.completed.sort (· ≤ ·)⟩

/-- The number of int16 samples the run writes to the sink for chunk `j`:
the loaded artifact's length when checkpoint reuse succeeds, otherwise the
total length of the converted buffers inference yields. -/
def seq_written (A E : Type) (env : SeqEnv A E) (useCk resume : Bool)
    (completed₀ : Finset ℕ) (j : ℕ) : ℕ :=
  if useCk = true ∧ resume = true ∧ j ∈ completed₀ then
    match env.load j with
    | some (.inl p) => p.length
    | some (.inr a) => (env.a2i a).length
    | none => (((env.generate j).yields.map env.a2i).flatten).length
  else (((env.generate j).yields.map env.a2i).flatten).length

/-! ## `pipeline.py`: overlapped runner (`run_overlap3_pipeline`)

The two connecting queues are FIFO with a single producer and a single
consumer each, so the message sequence each consumer dequeues equals the
sequence its producer enqueued; the model therefore composes the three
stages over those message sequences.  Queue capacities only throttle the
producers and do not change the sequences.  Visibility of the shared
`worker_errors` channel at the controller's pre-read checks races with the
queues and is given by an oracle `sched` (number of captured errors visible
at the t-th check); by queue causality every captured error is visible once
the `end` sentinel has been dequeued, which is when the post-loop check
runs. -/

/-- Messages travelling through the two queues:
`("start", idx, None)`, `("audio", idx, payload)`, `("done", idx, ms)` and
the `("end", -1, None)` sentinel. -/
inductive OMsg (A : Type) where
  | startM (idx : ℕ)
  | audioM (idx : ℕ) (payload : A)
  | doneM (idx : ℕ) (ms : ℕ)
  | endM
deriving Repr

/-- The chunk loop of `inference_worker` over the `n` remaining chunks
starting at index `k`: per chunk a `start` marker, one `audio` message per
yielded buffer, then a `done` marker; a raised exception stops the loop and
is captured into the error channel. -/
def iw_go (A E : Type) (gen : ℕ → GenOutcome A E) (elapsed : ℕ → ℕ) :
    ℕ → ℕ → List (OMsg A) × List E
  | 0, _ => ([], [])
  | n + 1, k =>
    let g := gen k
    let pre := OMsg.startM k :: g.yields.map (OMsg.audioM k)
    match g.failure with
    | some e => (pre, [e])
    | none =>
      let r := iw_go A E gen elapsed n (k + 1)
      (pre ++ [OMsg.doneM k (elapsed k)] ++ r.1, r.2)

/-- `inference_worker` from `run_overlap3_pipeline`: the chunk loop
followed by the `finally`-guaranteed `end` sentinel. -/
def inference_worker (A E : Type) (gen : ℕ → GenOutcome A E)
    (elapsed : ℕ → ℕ) (N : ℕ) : List (OMsg A) × List E :=
  let r := iw_go A E gen elapsed N 0
  (r.1 ++ [OMsg.endM], r.2)

/-- `convert_worker` from `run_overlap3_pipeline`: drain the inference
queue until the `end` sentinel, converting `audio` payloads with the
(possibly raising) `audio_to_int16_fn` and forwarding every message; a
raised conversion exception is captured and the `finally` still emits the
`end` sentinel.  An input with no sentinel means the stage blocks forever
(unreachable: the inference stage always enqueues one). -/
def convert_worker (A E : Type) (a2iE : A → Except E (List Int)) :
    List (OMsg A) → List (OMsg (List Int)) × List E
  | [] => ([], [])
  | OMsg.endM :: _ => ([OMsg.endM], [])
  | OMsg.startM i :: rest =>
    let r := convert_worker A E a2iE rest
    (OMsg.startM i :: r.1, r.2)
  | OMsg.doneM i ms :: rest =>
    let r := convert_worker A E a2iE rest
    (OMsg.doneM i ms :: r.1, r.2)
  | OMsg.audioM i a :: rest =>
    match a2iE a with
    | .error e => ([OMsg.endM], [e])
    | .ok p =>
      let r := convert_worker A E a2iE rest
      (OMsg.audioM i p :: r.1, r.2)

/-- How the controller aborts: a re-raised captured worker error, the
`RuntimeError` for an out-of-range chunk index, or blocking forever on a
queue that never delivers (unreachable in the composed pipeline). -/
inductive CtrlErr (E : Type) where
  | workerErr (e : E)
  | invalidIndex (i : ℕ)
  | blocked
deriving Repr

/-- The controller's state, with ghost observation traces: `startOrder` is
the sequence of chunk indices of the `start` messages it processes and
`audioTrace` the `audio` payloads it writes, in processing order. -/
structure CtrlSt where
  offsets : List ℕ
  started : List Bool
  cumulative : ℕ
  sink : List Int
  times : List ℕ
  startOrder : List ℕ
  audioTrace : List (ℕ × List Int)
  processed : ℕ

/-- The controller loop of `run_overlap3_pipeline`: before each queue read
check the error channel (visibility by `sched`), re-raising the first
captured error; dispatch on the message kind; after the `end` sentinel
re-check the (by then fully visible) error channel. -/
def controller_go (E : Type) (errs : List E) (sched : ℕ → ℕ) (total : ℕ)
    (msgs : List (OMsg (List Int))) (t : ℕ) (st : CtrlSt) :
    Except (CtrlErr E) CtrlSt :=
  match msgs with
  | [] => .error .blocked
  | m :: rest =>
    match errs, sched t with
    | e :: _, _ + 1 => .error (.workerErr e)
    | _, _ =>
      match m with
      | .endM =>
        match errs with
        | e :: _ => .error (.workerErr e)
        | [] => .ok st
      | .startM i =>
        if total ≤ i then .error (.invalidIndex i)
        else
          controller_go E errs sched total rest (t + 1)
            { st with
              offsets := st.offsets.set i st.cumulative
              started := st.started.set i true
              startOrder := st.startOrder ++ [i] }
      | .audioM i p =>
        if total ≤ i then .error (.invalidIndex i)
        else
          let st1 :=
            if st.started.getD i false then st
            else { st with
                   offsets := st.offsets.set i st.cumulative
                   started := st.started.set i true }
          controller_go E errs sched total rest (t + 1)
            { st1 with
              sink := st1.sink ++ p
              cumulative := st1.cumulative + p.length
              audioTrace := st1.audioTrace ++ [(i, p)] }
      | .doneM i ms =>
        if total ≤ i then .error (.invalidIndex i)
        else
          controller_go E errs sched total rest (t + 1)
            { st with
              times := st.times ++ [ms]
              processed := st.processed + 1 }

/-- The controller's initial state
(`chunk_sample_offsets = [0] * total_chunks`,
`chunk_started = [False] * total_chunks`). -/
def ctrl_init (N : ℕ) : CtrlSt :=
  { offsets := List.replicate N 0
    started := List.replicate N false
    cumulative := 0
    sink := []
    times := []
    startOrder := []
    audioTrace := []
    processed := 0 }

/-- `run_overlap3_pipeline` over `N` chunks: the three stages composed over
the FIFO queue contents.  The `Bool` component records that the `finally`
block joined both worker threads (with a timeout) on every exit path. -/
def run_overlap3_pipeline (A E : Type) (gen : ℕ → GenOutcome A E)
    (a2iE : A → Except E (List Int)) (elapsed : ℕ → ℕ) (sched : ℕ → ℕ)
    (N : ℕ) : Except (CtrlErr E) CtrlSt × Bool :=
  let iw := inference_worker A E gen elapsed N
  let cv := convert_worker A E a2iE iw.1
  (controller_go E (iw.2 ++ cv.2) sched N cv.1 0 (ctrl_init N), true)

/-- The number of int16 samples the overlapped run writes for chunk `j`. -/
def ovl_written (A E : Type) (gen : ℕ → GenOutcome A E)
    (f : A → List Int) (j : ℕ) : ℕ :=
  (((gen j).yields.map f).flatten).length

/-- The per-index sample count together with the prefix-sum invariant the
sequential run maintains: after processing chunks `0..k-1`, the assigned
offsets are the prefix sums of `seq_written`, the unassigned ones still
hold the preallocated `0`, the cumulative counter equals the samples
written so far, and the membership of unprocessed indices in the completed
set is unchanged. -/
def seq_c10_inv (A E : Type) (env : SeqEnv A E) (useCk resume : Bool)
    (completed₀ : Finset ℕ) (N : ℕ) (k : ℕ) (st : SeqSt) : Prop :=
  st.offsets.length = N ∧
  (∀ i, i < k → st.offsets[i]? = some (∑ j ∈ Finset.range i,
    seq_written A E env useCk resume completed₀ j)) ∧
  (∀ i, k ≤ i → i < N → st.offsets[i]? = some 0) ∧
  st.cumulative = (∑ j ∈ Finset.range k,
    seq_written A E env useCk resume completed₀ j) ∧
  st.sink.length = st.cumulative ∧
  (∀ j, k ≤ j → (j ∈ st.completed ↔ j ∈ completed₀))

/-- The action of the conversion stage on a single queue message
(`audio` payloads converted, everything else forwarded unchanged). -/
def omsg_convert (A : Type) (f : A → List Int) : OMsg A → OMsg (List Int)
  | .startM i => .startM i
  | .audioM i a => .audioM i (f a)
  | .doneM i ms => .doneM i ms
  | .endM => .endM

/-- The chunk index carried by a queue message is in range (vacuous for the
`end` sentinel). -/
def OMsgIdxLt (N : ℕ) (A : Type) : OMsg A → Prop
  | .startM i => i < N
  | .audioM i _ => i < N
  | .doneM i _ => i < N
  | .endM => True

/-- The state invariant of the controller of the overlapped pipeline after
the chunk groups `0..k-1` have been drained: offsets hold the prefix sums
of the converted sample counts, `start` messages were observed exactly for
`0..k-1` in order, and the audio trace is the concatenation of the chunks'
converted yields in index order. -/
def ctrl_inv (A E : Type) (gen : ℕ → GenOutcome A E) (f : A → List Int)
    (N k : ℕ) (st : CtrlSt) : Prop :=
  st.offsets.length = N ∧
  (∀ i, i < k → st.offsets[i]? = some (∑ j ∈ Finset.range i,
    ovl_written A E gen f j)) ∧
  (∀ i, k ≤ i → i < N → st.offsets[i]? = some 0) ∧
  st.cumulative = (∑ j ∈ Finset.range k, ovl_written A E gen f j) ∧
  st.sink.length = st.cumulative ∧
  st.started.length = N ∧
  st.startOrder = List.range' 0 k ∧
  st.audioTrace = ((List.range' 0 k).map (fun j =>
    ((gen j).yields.map f).map (fun p => (j, p)))).flatten ∧
  st.processed = k

/-- The sample-offsets invariant of the returned `PipelineRunResult`,
relative to the per-chunk sample count `w`: one entry per chunk, each entry
the cumulative sample count before that chunk's audio began (the prefix sum
of `w`), first entry `0` when a chunk exists, entries non-decreasing, and
`total_samples` equal to the final cumulative count and to the number of
samples written to the sink, bounding every entry. -/
def C10Inv (N : ℕ) (w : ℕ → ℕ) (offsets : List ℕ)
    (total sinkLen : ℕ) : Prop :=
  offsets.length = N ∧
  (∀ i, i < N → offsets[i]? = some (∑ j ∈ Finset.range i, w j)) ∧
  (0 < N → offsets[0]? = some 0) ∧
  List.Chain' (· ≤ ·) offsets ∧
  total = (∑ j ∈ Finset.range N, w j) ∧
  sinkLen = total ∧
  (∀ i v, i < N → offsets[i]? = some v → v ≤ total)

/-! # Theorems -/

/-! ## C1: single-field fingerprint sensitivity -/

/-- C1: for every pair of runs whose resolved configurations differ in
exactly one fingerprint field (voice, speed, language code, backend,
device, chunk size, split pattern, output format, bitrate, normalization),
with backends produced by `resolve_backend` and devices produced by
`resolve_device_for_args`, the fingerprints built by
`build_checkpoint_config` differ, so such a resume attempt is not
resume-compatible. -/
theorem c1_fingerprint_single_field_change (r1 r2 : RunConfig)
    (hb1 : BackendResolved r1) (_hb2 : BackendResolved r2)
    (hd1 : DeviceResolved r1) (hd2 : DeviceResolved r2)
    (hdiff : diffCount r1 r2 = 1) :
    build_checkpoint_config r1 ≠ build_checkpoint_config r2 := by
  intro h
  have hvoice : r1.voice = r2.voice := congrArg CheckpointConfig.voice h
  have hspeed : r1.speed = r2.speed := congrArg CheckpointConfig.speed h
  have hlang : r1.lang_code = r2.lang_code :=
    congrArg CheckpointConfig.lang_code h
  have hback : r1.backend = r2.backend := congrArg CheckpointConfig.backend h
  have hcc : r1.chunk_chars = r2.chunk_chars :=
    congrArg CheckpointConfig.chunk_chars h
  have hsp : r1.split_pattern = r2.split_pattern :=
    congrArg CheckpointConfig.split_pattern h
  have hfmt : r1.format = r2.format := congrArg CheckpointConfig.format h
  have hbit : r1.bitrate = r2.bitrate := congrArg CheckpointConfig.bitrate h
  have hnorm : r1.normalize = r2.normalize :=
    congrArg CheckpointConfig.normalize h
  have hdevcfg : (if r1.backend = "pytorch" then r1.device else "auto")
      = (if r2.backend = "pytorch" then r2.device else "auto") :=
    congrArg CheckpointConfig.device h
  have hdev : r1.device = r2.device := by
    rcases hb1 with hpt | hmlx | hmock
    · rw [hpt, ← hback, hpt] at hdevcfg
      simpa using hdevcfg
    · obtain ⟨req1, lm1, ap1, he1⟩ := hd1
      obtain ⟨req2, lm2, ap2, he2⟩ := hd2
      rw [hmlx] at he1
      rw [← hback, hmlx] at he2
      have e1 : (resolve_device_for_args req1 lm1 ap1 "mlx").1 = "mlx" := by
        simp [resolve_device_for_args]
      have e2 : (resolve_device_for_args req2 lm2 ap2 "mlx").1 = "mlx" := by
        simp [resolve_device_for_args]
      rw [he1, he2, e1, e2]
    · obtain ⟨req1, lm1, ap1, he1⟩ := hd1
      obtain ⟨req2, lm2, ap2, he2⟩ := hd2
      rw [hmock] at he1
      rw [← hback, hmock] at he2
      have e1 : (resolve_device_for_args req1 lm1 ap1 "mock").1 = "cpu" := by
        simp [resolve_device_for_args]
      have e2 : (resolve_device_for_args req2 lm2 ap2 "mock").1 = "cpu" := by
        simp [resolve_device_for_args]
      rw [he1, he2, e1, e2]
  rw [diffCount, hvoice, hspeed, hlang, hback, hdev, hcc, hsp, hfmt, hbit,
    hnorm] at hdiff
  simp at hdiff

/-- Witness for C1 at concrete runs differing exactly in the bitrate. -/
theorem c1_fingerprint_single_field_change_witness :
    (BackendResolved ⟨"af_heart", 1, "a", "pytorch", "cpu", 600, "sp",
        "mp3", "192k", false⟩ ∧
      DeviceResolved ⟨"af_heart", 1, "a", "pytorch", "cpu", 600, "sp",
        "mp3", "192k", false⟩ ∧
      DeviceResolved ⟨"af_heart", 1, "a", "pytorch", "cpu", 600, "sp",
        "mp3", "320k", false⟩ ∧
      diffCount
        ⟨"af_heart", 1, "a", "pytorch", "cpu", 600, "sp", "mp3", "192k",
          false⟩
        ⟨"af_heart", 1, "a", "pytorch", "cpu", 600, "sp", "mp3", "320k",
          false⟩ = 1) ∧
    build_checkpoint_config
        ⟨"af_heart", 1, "a", "pytorch", "cpu", 600, "sp", "mp3", "192k",
          false⟩
      ≠ build_checkpoint_config
        ⟨"af_heart", 1, "a", "pytorch", "cpu", 600, "sp", "mp3", "320k",
          false⟩ :=
  ⟨⟨Or.inl rfl, ⟨"cpu", false, false, rfl⟩, ⟨"cpu", false, false, rfl⟩,
      by decide⟩,
    c1_fingerprint_single_field_change _ _ (Or.inl rfl) (Or.inl rfl)
      ⟨"cpu", false, false, rfl⟩ ⟨"cpu", false, false, rfl⟩ (by decide)⟩

/-! ## C7: pipeline-mode coercion -/

/-- C7: `resolve_pipeline_mode_for_args` coerces overlapped mode to
sequential with a recorded warning whenever checkpointing is enabled or the
output format is not the single-container MP3 stream; overlapped mode is
returned unchanged exactly for non-checkpointed MP3 output; and the
coercion is never silent (a changed mode always records a warning). -/
theorem c7_pipeline_mode_coercion (pm : Option String) (fmt : String)
    (ck : Bool) :
    (pm = some "overlap3" → (fmt ≠ "mp3" ∨ ck = true) →
      resolve_pipeline_mode_for_args pm fmt ck
        = ("sequential", [overlap3Warning])) ∧
    (pm = some "overlap3" → fmt = "mp3" → ck = false →
      resolve_pipeline_mode_for_args pm fmt ck = ("overlap3", [])) ∧
    ((resolve_pipeline_mode_for_args pm fmt ck).1
        ≠ pm.getD (default_pipeline_mode fmt ck) →
      (resolve_pipeline_mode_for_args pm fmt ck).2 ≠ []) := by
  refine ⟨?_, ?_, ?_⟩
  · rintro rfl hbad
    rcases hbad with hbad | hbad
    · simp [resolve_pipeline_mode_for_args, hbad]
    · simp [resolve_pipeline_mode_for_args, hbad]
  · rintro rfl rfl rfl
    simp [resolve_pipeline_mode_for_args]
  · intro hne
    by_cases hc : pm.getD (default_pipeline_mode fmt ck) = "overlap3" ∧
        (fmt ≠ "mp3" ∨ ck = true)
    · rw [resolve_pipeline_mode_for_args, if_pos hc]
      simp
    · exfalso
      apply hne
      rw [resolve_pipeline_mode_for_args, if_neg hc]

/-- Witness for C7: overlap3 with M4B output is coerced with a warning;
overlap3 with plain MP3 and no checkpointing is kept. -/
theorem c7_pipeline_mode_coercion_witness :
    resolve_pipeline_mode_for_args (some "overlap3") "m4b" false
        = ("sequential", [overlap3Warning]) ∧
      resolve_pipeline_mode_for_args (some "overlap3") "mp3" false
        = ("overlap3", []) :=
  ⟨(c7_pipeline_mode_coercion (some "overlap3") "m4b" false).1 rfl
      (Or.inl (by decide)),
    (c7_pipeline_mode_coercion (some "overlap3") "mp3" false).2.1 rfl rfl
      rfl⟩

/-! ## C9: independent cleanup steps and error precedence -/

/-- C9: on every termination of the main job all three cleanup steps are
executed in order (each catching its own exceptions, so no step can prevent
the others); a main-job error is the one propagated, with cleanup errors
suppressed; and when the main job succeeded the first cleanup error is
propagated instead of being swallowed (nothing is propagated iff the job
and all three cleanups succeeded). -/
theorem c9_cleanup_independent (E : Type) (mainError : Option E)
    (b : BackendModel E) (f : Option (FfmpegProcModel E))
    (s : Option (SpoolModel E)) :
    ((main_finally E mainError b f s).2.backendResult = cleanup_backend E b ∧
      (main_finally E mainError b f s).2.ffmpegResult
        = cleanup_ffmpeg_process E f ∧
      (main_finally E mainError b f s).2.spoolResult
        = cleanup_spool_path E s) ∧
    (∀ e, mainError = some e → (main_finally E mainError b f s).1 = some e) ∧
    (mainError = none → (main_finally E mainError b f s).1
      = ((cleanup_backend E b).orElse fun _ =>
          (cleanup_ffmpeg_process E f).orElse fun _ =>
            cleanup_spool_path E s)) ∧
    ((main_finally E mainError b f s).1 = none ↔
      mainError = none ∧ cleanup_backend E b = none ∧
        cleanup_ffmpeg_process E f = none ∧ cleanup_spool_path E s = none) := by
  refine ⟨⟨rfl, rfl, rfl⟩, ?_, ?_, ?_⟩
  · rintro e rfl
    rfl
  · rintro rfl
    rfl
  · cases mainError with
    | some e => simp [main_finally]
    | none =>
      cases hb : cleanup_backend E b <;>
        cases hf : cleanup_ffmpeg_process E f <;>
          cases hs : cleanup_spool_path E s <;>
            simp [main_finally, hb, hf, hs, Option.orElse]

/-- Witness for C9: a failed main job propagates its own error over a
failing backend cleanup; a successful main job surfaces that same cleanup
error. -/
theorem c9_cleanup_independent_witness :
    (main_finally ℕ (some 5) ⟨true, some 1⟩ none none).1 = some 5 ∧
      (main_finally ℕ none ⟨true, some 1⟩ none none).1 = some 1 :=
  ⟨(c9_cleanup_independent ℕ (some 5) ⟨true, some 1⟩ none none).2.1 5 rfl,
    by
      have := (c9_cleanup_independent ℕ none ⟨true, some 1⟩ none none).2.2.1
        rfl
      simpa [cleanup_backend, Option.orElse] using this⟩

/-! ## C5 (counterexample): the unconditional round-trip law fails -/

/-- C5 counterexample: for the single chapter `("T", "abcde")` with
`chunk_chars = 2` the hard character split emits chunks `ab`, `cd`, `e`;
joining them with single spaces yields `ab cd e`, which does not reproduce
the chapter's cleaned text `abcde`. -/
theorem c5_roundtrip_counterexample :
    joinSp
        (((split_text_to_chunks [(['T'], ['a', 'b', 'c', 'd', 'e'])] 2).1).map
          TextChunk.text)
      ≠ chapter_cleaned ['a', 'b', 'c', 'd', 'e'] := by
  decide

/-! ## Helper lemmas: `pstrip` -/

theorem mem_dropWhile_of_not (p : Char → Bool) (c : Char)
    (hc : p c = false) : ∀ l : List Char, c ∈ l → c ∈ l.dropWhile p := by
  intro l
  induction l with
  | nil => intro hm; cases hm
  | cons a t ih =>
    intro hm
    rw [List.dropWhile_cons]
    by_cases ha : p a = true
    · rw [if_pos ha]
      rcases List.mem_cons.mp hm with rfl | hm'
      · rw [hc] at ha; cases ha
      · exact ih hm'
    · rw [if_neg ha]; exact hm

theorem mem_pstrip (c : Char) (l : List Char) (hc : isSpc c = false)
    (hm : c ∈ l) : c ∈ pstrip l := by
  rw [pstrip]
  simp only [List.rdropWhile, List.mem_reverse]
  exact mem_dropWhile_of_not isSpc c hc _
    (List.mem_reverse.mpr (mem_dropWhile_of_not isSpc c hc l hm))

theorem pstrip_ne_nil (c : Char) (l : List Char) (hc : isSpc c = false)
    (hm : c ∈ l) : pstrip l ≠ [] :=
  List.ne_nil_of_mem (mem_pstrip c l hc hm)

theorem pstrip_sublist (l : List Char) : (pstrip l).Sublist l := by
  have h := List.rdropWhile_prefix isSpc (l.dropWhile isSpc)
  exact h.sublist.trans (List.dropWhile_suffix isSpc).sublist

theorem pstrip_length_le (l : List Char) : (pstrip l).length ≤ l.length :=
  (pstrip_sublist l).length_le

theorem pstrip_cons_spc (c : Char) (l : List Char) (hc : isSpc c = true) :
    pstrip (c :: l) = pstrip l := by
  rw [pstrip, pstrip, List.dropWhile_cons, if_pos hc]

theorem pstrip_head?_not (l : List Char) (c : Char)
    (h : (pstrip l).head? = some c) : isSpc c = false := by
  obtain ⟨t, ht⟩ := List.rdropWhile_prefix isSpc (l.dropWhile isSpc)
  cases hps : pstrip l with
  | nil => rw [hps] at h; cases h
  | cons x xs =>
    rw [hps] at h
    injection h with h
    subst h
    have hteq : (x :: xs) ++ t = l.dropWhile isSpc := by
      rw [← hps]; exact ht
    have hd : l.dropWhile isSpc ≠ [] := by
      rw [← hteq]; simp
    have hnot := List.head_dropWhile_not isSpc l hd
    have hq : (l.dropWhile isSpc).head? = some x := by rw [← hteq]; rfl
    have hq2 : (l.dropWhile isSpc).head?
        = some ((l.dropWhile isSpc).head hd) := List.head?_eq_head hd
    rw [hq] at hq2
    injection hq2 with hq2
    rw [hq2]
    exact hnot

theorem pstrip_last?_not (l : List Char) (c : Char)
    (h : (pstrip l).getLast? = some c) : isSpc c = false := by
  have hne : pstrip l ≠ [] := by
    intro h0
    rw [h0] at h
    cases h
  have h1 := List.rdropWhile_last_not isSpc (l.dropWhile isSpc) hne
  have h2 : (pstrip l).getLast? = some ((pstrip l).getLast hne) :=
    List.getLast?_eq_getLast _ hne
  rw [h] at h2
  injection h2 with h2
  rw [h2]
  exact Bool.eq_false_iff.mpr h1

theorem pstrip_eq_self_of (l : List Char)
    (hh : ∀ c, l.head? = some c → isSpc c = false)
    (hl : ∀ c, l.getLast? = some c → isSpc c = false) : pstrip l = l := by
  cases l with
  | nil => rfl
  | cons x xs =>
    have hx : isSpc x = false := hh x rfl
    rw [pstrip, List.dropWhile_cons, if_neg (by simp [hx])]
    apply List.rdropWhile_eq_self_iff.mpr
    intro hne
    have := hl ((x :: xs).getLast hne) (List.getLast?_eq_getLast _ hne)
    simp [this]

theorem pstrip_idem (l : List Char) : pstrip (pstrip l) = pstrip l :=
  pstrip_eq_self_of _ (pstrip_head?_not l) (pstrip_last?_not l)

theorem pstrip_append_sep (a b : List Char) (ha : pstrip a = a)
    (hb : pstrip b = b) (hna : a ≠ []) (hnb : b ≠ []) :
    pstrip (a ++ ' ' :: b) = a ++ ' ' :: b := by
  apply pstrip_eq_self_of
  · intro c hc
    cases a with
    | nil => exact absurd rfl hna
    | cons x xs =>
      rw [List.cons_append, List.head?_cons] at hc
      injection hc with hc
      apply pstrip_head?_not (x :: xs)
      rw [ha, List.head?_cons, hc]
  · intro c hc
    rw [List.getLast?_append_of_ne_nil a (by simp)] at hc
    have hcons : (' ' :: b).getLast? = b.getLast? := by
      have : ' ' :: b = [' '] ++ b := rfl
      rw [this, List.getLast?_append_of_ne_nil [' '] hnb]
    rw [hcons] at hc
    apply pstrip_last?_not b
    rw [hb]
    exact hc

theorem pstrip_spc_cons (b : List Char) (hb : pstrip b = b) :
    pstrip (' ' :: b) = b := by
  rw [pstrip_cons_spc ' ' b (by decide)]
  exact hb

/-! ## Helper lemmas: `hard_split` -/

theorem hs_go_length_le (cc : ℕ) (hcc : 1 ≤ cc) :
    ∀ (s acc : List Char) (k : ℕ), acc.length + k = cc →
      ∀ x ∈ hs_go cc s acc k, x.length ≤ cc := by
  intro s
  induction s with
  | nil =>
    intro acc k hinv x hx
    simp only [hs_go] at hx
    by_cases hac : acc.isEmpty
    · rw [if_pos hac] at hx; cases hx
    · rw [if_neg hac] at hx
      rw [List.mem_singleton.mp hx, List.length_reverse]
      omega
  | cons c rest ih =>
    intro acc k hinv x hx
    match k with
    | 0 =>
      simp only [hs_go] at hx
      rcases List.mem_cons.mp hx with rfl | hx'
      · rw [List.length_reverse]; omega
      · exact ih [c] (cc - 1) (by simp; omega) x hx'
    | k + 1 =>
      simp only [hs_go] at hx
      exact ih (c :: acc) k (by simp; omega) x hx

theorem hs_go_flatten (cc : ℕ) :
    ∀ (s acc : List Char) (k : ℕ),
      (hs_go cc s acc k).flatten = acc.reverse ++ s := by
  intro s
  induction s with
  | nil =>
    intro acc k
    simp only [hs_go]
    by_cases hac : acc.isEmpty
    · rw [if_pos hac, List.isEmpty_iff.mp hac]; rfl
    · rw [if_neg hac]; simp
  | cons c rest ih =>
    intro acc k
    match k with
    | 0 =>
      simp only [hs_go, List.flatten_cons, ih [c] (cc - 1)]
      simp
    | k + 1 =>
      rw [hs_go, ih (c :: acc) k]
      simp

theorem hard_split_length_le (cc : ℕ) (hcc : 1 ≤ cc) (s : List Char) :
    ∀ x ∈ hard_split cc s, x.length ≤ cc := by
  rw [hard_split, if_neg (by omega)]
  exact hs_go_length_le cc hcc s [] cc (by simp)

theorem hard_split_flatten (cc : ℕ) (hcc : 1 ≤ cc) (s : List Char) :
    (hard_split cc s).flatten = s := by
  rw [hard_split, if_neg (by omega)]
  simpa using hs_go_flatten cc s [] cc

theorem hard_split_ne_nil (cc : ℕ) (hcc : 1 ≤ cc) (s : List Char)
    (hs : s ≠ []) : hard_split cc s ≠ [] := by
  intro h
  apply hs
  have := hard_split_flatten cc hcc s
  rw [h] at this
  simpa using this.symm

/-! ## Helper lemmas: `appendIfNonempty` and the sentence loop -/

theorem mem_appendIfNonempty (ps : List (List Char)) (b x : List Char)
    (hx : x ∈ appendIfNonempty ps b) : x ∈ ps ∨ x = b := by
  rw [appendIfNonempty] at hx
  by_cases hb : b.isEmpty
  · rw [if_pos hb] at hx; exact Or.inl hx
  · rw [if_neg hb] at hx
    rcases List.mem_append.mp hx with h | h
    · exact Or.inl h
    · exact Or.inr (List.mem_singleton.mp h)

theorem mem_appendIfNonempty_left (ps : List (List Char)) (b x : List Char)
    (hx : x ∈ ps) : x ∈ appendIfNonempty ps b := by
  rw [appendIfNonempty]
  by_cases hb : b.isEmpty
  · rwa [if_pos hb]
  · rw [if_neg hb]; exact List.mem_append_left _ hx

theorem mem_appendIfNonempty_buf (ps : List (List Char)) (b : List Char)
    (hb : b ≠ []) : b ∈ appendIfNonempty ps b := by
  rw [appendIfNonempty, if_neg (by simp [hb])]
  simp

theorem appendIfNonempty_ne_nil (ps : List (List Char)) (b : List Char)
    (h : ps ≠ [] ∨ b ≠ []) : appendIfNonempty ps b ≠ [] := by
  rw [appendIfNonempty]
  rcases h with h | h
  · by_cases hb : b.isEmpty
    · rwa [if_pos hb]
    · rw [if_neg hb]; simp
  · rw [if_neg (by simp [h])]; simp

theorem so_step_bound (cc : ℕ) (hcc : 1 ≤ cc)
    (st : List (List Char) × List Char) (s : List Char)
    (h1 : ∀ x ∈ st.1, x.length ≤ cc) (h2 : st.2.length ≤ cc) :
    (∀ x ∈ (so_step cc st s).1, x.length ≤ cc) ∧
      (so_step cc st s).2.length ≤ cc := by
  simp only [so_step]
  split_ifs with hemp hover hcand
  · exact ⟨h1, h2⟩
  · constructor
    · intro x hx
      rcases List.mem_append.mp hx with h | h
      · rcases mem_appendIfNonempty _ _ _ h with h' | rfl
        · exact h1 _ h'
        · exact h2
      · exact hard_split_length_le cc hcc _ x h
    · simp
  · exact ⟨h1, hcand⟩
  · constructor
    · intro x hx
      rcases mem_appendIfNonempty _ _ _ hx with h' | rfl
      · exact h1 _ h'
      · exact h2
    · exact le_of_not_lt hover

theorem so_loop_bound (cc : ℕ) (hcc : 1 ≤ cc) :
    ∀ (ss : List (List Char)) (st : List (List Char) × List Char),
      (∀ x ∈ st.1, x.length ≤ cc) → st.2.length ≤ cc →
      (∀ x ∈ (so_loop cc ss st).1, x.length ≤ cc) ∧
        (so_loop cc ss st).2.length ≤ cc := by
  intro ss
  induction ss with
  | nil => intro st h1 h2; exact ⟨h1, h2⟩
  | cons s rest ih =>
    intro st h1 h2
    have h := so_step_bound cc hcc st s h1 h2
    exact ih _ h.1 h.2

theorem so_step_ne (cc : ℕ) (hcc : 1 ≤ cc)
    (st : List (List Char) × List Char) (s : List Char)
    (hs : pstrip s ≠ []) :
    (so_step cc st s).1 ≠ [] ∨ (so_step cc st s).2 ≠ [] := by
  simp only [so_step]
  split_ifs with hemp hover hcand
  · exact absurd (List.isEmpty_iff.mp hemp) hs
  · left
    intro hnil
    exact hard_split_ne_nil cc hcc _ hs (List.append_eq_nil.mp hnil).2
  · right
    cases hps : pstrip s with
    | nil => exact absurd hps hs
    | cons x xs =>
      have hx : isSpc x = false :=
        pstrip_head?_not s x (by rw [hps]; rfl)
      have hmem : x ∈ st.2 ++ ' ' :: x :: xs := by simp
      exact pstrip_ne_nil x _ hx hmem
  · right
    exact hs

theorem so_step_preserve_ne (cc : ℕ) (hcc : 1 ≤ cc)
    (st : List (List Char) × List Char) (s : List Char)
    (h : st.1 ≠ [] ∨ st.2 ≠ []) :
    (so_step cc st s).1 ≠ [] ∨ (so_step cc st s).2 ≠ [] := by
  by_cases hs : pstrip s = []
  · simp only [so_step, hs]
    simpa using h
  · exact so_step_ne cc hcc st s hs

theorem so_loop_preserve_ne (cc : ℕ) (hcc : 1 ≤ cc) :
    ∀ (ss : List (List Char)) (st : List (List Char) × List Char),
      (st.1 ≠ [] ∨ st.2 ≠ []) →
      (so_loop cc ss st).1 ≠ [] ∨ (so_loop cc ss st).2 ≠ [] := by
  intro ss
  induction ss with
  | nil => intro st h; exact h
  | cons s rest ih =>
    intro st h
    exact ih _ (so_step_preserve_ne cc hcc st s h)

theorem so_loop_ne (cc : ℕ) (hcc : 1 ≤ cc) :
    ∀ (ss : List (List Char)) (st : List (List Char) × List Char),
      (∃ s ∈ ss, pstrip s ≠ []) →
      (so_loop cc ss st).1 ≠ [] ∨ (so_loop cc ss st).2 ≠ [] := by
  intro ss
  induction ss with
  | nil =>
    rintro st ⟨s, hs, -⟩
    cases hs
  | cons a rest ih =>
    rintro st ⟨s, hs, hsne⟩
    rcases List.mem_cons.mp hs with rfl | hmem
    · exact so_loop_preserve_ne cc hcc rest _ (so_step_ne cc hcc st s hsne)
    · exact ih _ ⟨s, hmem, hsne⟩

theorem so_step_nw (cc : ℕ) (hcc : 1 ≤ cc)
    (st : List (List Char) × List Char) (s : List Char)
    (hs : pstrip s ≠ []) :
    (∃ x ∈ (so_step cc st s).1, ∃ c ∈ x, isSpc c = false) ∨
      (∃ c ∈ (so_step cc st s).2, isSpc c = false) := by
  cases hps : pstrip s with
  | nil => exact absurd hps hs
  | cons y ys =>
    have hy : isSpc y = false := pstrip_head?_not s y (by rw [hps]; rfl)
    simp only [so_step, hps]
    split_ifs with hemp hover hcand
    · cases hemp
    · left
      have hyj : y ∈ (hard_split cc (y :: ys)).flatten := by
        rw [hard_split_flatten cc hcc]; simp
      obtain ⟨piece, hpmem, hymem⟩ := List.mem_flatten.mp hyj
      exact ⟨piece, List.mem_append_right _ hpmem, y, hymem, hy⟩
    · right
      exact ⟨y, mem_pstrip y _ hy (by simp), hy⟩
    · right
      exact ⟨y, by simp, hy⟩

theorem so_step_preserve_nw (cc : ℕ) (hcc : 1 ≤ cc)
    (st : List (List Char) × List Char) (s : List Char)
    (h : (∃ x ∈ st.1, ∃ c ∈ x, isSpc c = false) ∨
      (∃ c ∈ st.2, isSpc c = false)) :
    (∃ x ∈ (so_step cc st s).1, ∃ c ∈ x, isSpc c = false) ∨
      (∃ c ∈ (so_step cc st s).2, isSpc c = false) := by
  by_cases hs : pstrip s = []
  · simp only [so_step, hs]
    simpa using h
  · exact so_step_nw cc hcc st s hs

theorem so_loop_preserve_nw (cc : ℕ) (hcc : 1 ≤ cc) :
    ∀ (ss : List (List Char)) (st : List (List Char) × List Char),
      ((∃ x ∈ st.1, ∃ c ∈ x, isSpc c = false) ∨
        (∃ c ∈ st.2, isSpc c = false)) →
      (∃ x ∈ (so_loop cc ss st).1, ∃ c ∈ x, isSpc c = false) ∨
        (∃ c ∈ (so_loop cc ss st).2, isSpc c = false) := by
  intro ss
  induction ss with
  | nil => intro st h; exact h
  | cons s rest ih =>
    intro st h
    exact ih _ (so_step_preserve_nw cc hcc st s h)

theorem so_loop_nw (cc : ℕ) (hcc : 1 ≤ cc) :
    ∀ (ss : List (List Char)) (st : List (List Char) × List Char),
      (∃ s ∈ ss, pstrip s ≠ []) →
      (∃ x ∈ (so_loop cc ss st).1, ∃ c ∈ x, isSpc c = false) ∨
        (∃ c ∈ (so_loop cc ss st).2, isSpc c = false) := by
  intro ss
  induction ss with
  | nil =>
    rintro st ⟨s, hs, -⟩
    cases hs
  | cons a rest ih =>
    rintro st ⟨s, hs, hsne⟩
    rcases List.mem_cons.mp hs with rfl | hmem
    · exact so_loop_preserve_nw cc hcc rest _ (so_step_nw cc hcc st s hsne)
    · exact ih _ ⟨s, hmem, hsne⟩

/-! ## Helper lemmas: `sentence_split` and `split_oversized_paragraph` -/

theorem sentence_split_go_head (s : List Char) :
    ∀ acc, ∃ t rest',
      sentence_split_go s acc false = (acc.reverse ++ t) :: rest' := by
  induction s with
  | nil =>
    intro acc
    exact ⟨[], [], by simp [sentence_split_go]⟩
  | cons c rest ih =>
    intro acc
    by_cases hcut : (isSpc c && acc.head?.elim false isPunctSO) = true
    · refine ⟨[], sentence_split_go rest [] true, ?_⟩
      simp only [sentence_split_go, hcut]
      simp
    · obtain ⟨t, r', h⟩ := ih (c :: acc)
      refine ⟨c :: t, r', ?_⟩
      simp only [sentence_split_go, hcut]
      rw [h]
      simp

theorem sentence_split_cons (c : Char) (rest : List Char) :
    ∃ t rest', sentence_split (c :: rest) = (c :: t) :: rest' := by
  rw [sentence_split]
  have hcond : (isSpc c && (([] : List Char).head?.elim false isPunctSO))
      = false := by simp
  obtain ⟨t, r', h⟩ := sentence_split_go_head rest [c]
  refine ⟨t, r', ?_⟩
  simp only [sentence_split_go, hcond]
  rw [h]
  simp

theorem split_oversized_bound (cc : ℕ) (hcc : 1 ≤ cc) (p : List Char)
    (hp : pstrip p = p) (hne : p ≠ []) :
    ∀ x ∈ split_oversized_paragraph cc p, x.length ≤ cc := by
  simp only [split_oversized_paragraph]
  by_cases hlen : p.length ≤ cc
  · rw [if_pos hlen]
    intro x hx
    rw [List.mem_singleton.mp hx]
    exact hlen
  · rw [if_neg hlen]
    cases p with
    | nil => exact absurd rfl hne
    | cons c prest =>
      obtain ⟨t, r', hss⟩ := sentence_split_cons c prest
      have hcx : isSpc c = false :=
        pstrip_head?_not (c :: prest) c (by rw [hp]; rfl)
      have hw : ∃ s ∈ sentence_split (c :: prest), pstrip s ≠ [] := by
        refine ⟨c :: t, by rw [hss]; exact List.mem_cons_self _ _, ?_⟩
        exact pstrip_ne_nil c _ hcx (List.mem_cons_self _ _)
      have hne2 := so_loop_ne cc hcc (sentence_split (c :: prest)) ([], []) hw
      have hbd := so_loop_bound cc hcc (sentence_split (c :: prest)) ([], [])
        (by simp) (by simp)
      have hpne : appendIfNonempty
          (so_loop cc (sentence_split (c :: prest)) ([], [])).1
          (so_loop cc (sentence_split (c :: prest)) ([], [])).2 ≠ [] :=
        appendIfNonempty_ne_nil _ _ hne2
      rw [if_neg (by simpa [List.isEmpty_iff] using hpne)]
      intro x hx
      rcases mem_appendIfNonempty _ _ _ hx with h | rfl
      · exact hbd.1 _ h
      · exact hbd.2

theorem split_oversized_nw (cc : ℕ) (hcc : 1 ≤ cc) (p : List Char)
    (hp : pstrip p = p) (hne : p ≠ []) :
    ∃ x ∈ split_oversized_paragraph cc p, ∃ c ∈ x, isSpc c = false := by
  have hhead : ∀ (c : Char) (prest : List Char), p = c :: prest →
      isSpc c = false := by
    intro c prest hpc
    subst hpc
    exact pstrip_head?_not (c :: prest) c (by rw [hp]; rfl)
  simp only [split_oversized_paragraph]
  by_cases hlen : p.length ≤ cc
  · rw [if_pos hlen]
    cases p with
    | nil => exact absurd rfl hne
    | cons c prest =>
      exact ⟨c :: prest, by simp, c, by simp, hhead c prest rfl⟩
  · rw [if_neg hlen]
    cases p with
    | nil => exact absurd rfl hne
    | cons c prest =>
      obtain ⟨t, r', hss⟩ := sentence_split_cons c prest
      have hcx : isSpc c = false := hhead c prest rfl
      have hw : ∃ s ∈ sentence_split (c :: prest), pstrip s ≠ [] := by
        refine ⟨c :: t, by rw [hss]; exact List.mem_cons_self _ _, ?_⟩
        exact pstrip_ne_nil c _ hcx (List.mem_cons_self _ _)
      have hnw := so_loop_nw cc hcc (sentence_split (c :: prest)) ([], []) hw
      have hne2 := so_loop_ne cc hcc (sentence_split (c :: prest)) ([], []) hw
      have hpne : appendIfNonempty
          (so_loop cc (sentence_split (c :: prest)) ([], [])).1
          (so_loop cc (sentence_split (c :: prest)) ([], [])).2 ≠ [] :=
        appendIfNonempty_ne_nil _ _ hne2
      rw [if_neg (by simpa [List.isEmpty_iff] using hpne)]
      rcases hnw with ⟨x, hx, c', hc', hcs⟩ | ⟨c', hc', hcs⟩
      · exact ⟨x, mem_appendIfNonempty_left _ _ _ hx, c', hc', hcs⟩
      · refine ⟨(so_loop cc (sentence_split (c :: prest)) ([], [])).2,
          mem_appendIfNonempty_buf _ _ (List.ne_nil_of_mem hc'), c', hc', hcs⟩

/-! ## Helper lemmas: the chapter piece loop -/

theorem bc_step_bound (cc : ℕ) (title : List Char)
    (st : List TextChunk × List Char) (piece : List Char)
    (hp : piece.length ≤ cc)
    (h1 : ∀ ch ∈ st.1, ch.text.length ≤ cc) (h2 : st.2.length ≤ cc) :
    (∀ ch ∈ (bc_step cc title st piece).1, ch.text.length ≤ cc) ∧
      (bc_step cc title st piece).2.length ≤ cc := by
  simp only [bc_step]
  split_ifs with hfit hbuf
  · refine ⟨h1, ?_⟩
    have h3 := pstrip_length_le (st.2 ++ ' ' :: piece)
    simp only [List.length_append, List.length_cons] at h3
    show (pstrip (st.2 ++ ' ' :: piece)).length ≤ cc
    omega
  · exact ⟨h1, hp⟩
  · refine ⟨?_, hp⟩
    intro ch hch
    rcases List.mem_append.mp hch with h | h
    · exact h1 ch h
    · rw [List.mem_singleton.mp h]
      exact h2

theorem bc_loop_bound (cc : ℕ) (title : List Char) :
    ∀ (ps : List (List Char)) (st : List TextChunk × List Char),
      (∀ p ∈ ps, p.length ≤ cc) →
      (∀ ch ∈ st.1, ch.text.length ≤ cc) → st.2.length ≤ cc →
      (∀ ch ∈ (bc_loop cc title ps st).1, ch.text.length ≤ cc) ∧
        (bc_loop cc title ps st).2.length ≤ cc := by
  intro ps
  induction ps with
  | nil => intro st _ h1 h2; exact ⟨h1, h2⟩
  | cons p rest ih =>
    intro st hps h1 h2
    have hstep := bc_step_bound cc title st p (hps p (by simp)) h1 h2
    exact ih _ (fun q hq => hps q (by simp [hq])) hstep.1 hstep.2

theorem bc_step_nw (cc : ℕ) (title : List Char)
    (st : List TextChunk × List Char) (piece : List Char)
    (hw : ∃ c ∈ piece, isSpc c = false) :
    (bc_step cc title st piece).1 ≠ [] ∨
      ∃ c ∈ (bc_step cc title st piece).2, isSpc c = false := by
  obtain ⟨c, hc, hcs⟩ := hw
  simp only [bc_step]
  split_ifs with hfit hbuf
  · right
    exact ⟨c, mem_pstrip c _ hcs (by simp [hc]), hcs⟩
  · right
    exact ⟨c, hc, hcs⟩
  · right
    exact ⟨c, hc, hcs⟩

theorem bc_step_preserve_nw (cc : ℕ) (title : List Char)
    (st : List TextChunk × List Char) (piece : List Char)
    (h : st.1 ≠ [] ∨ ∃ c ∈ st.2, isSpc c = false) :
    (bc_step cc title st piece).1 ≠ [] ∨
      ∃ c ∈ (bc_step cc title st piece).2, isSpc c = false := by
  simp only [bc_step]
  split_ifs with hfit hbuf
  · rcases h with h | ⟨c, hc, hcs⟩
    · exact Or.inl h
    · exact Or.inr ⟨c, mem_pstrip c _ hcs (by simp [hc]), hcs⟩
  · rcases h with h | ⟨c, hc, hcs⟩
    · exact Or.inl h
    · rw [List.isEmpty_iff.mp hbuf] at hc
      cases hc
  · left
    simp

theorem bc_loop_preserve_nw (cc : ℕ) (title : List Char) :
    ∀ (ps : List (List Char)) (st : List TextChunk × List Char),
      (st.1 ≠ [] ∨ ∃ c ∈ st.2, isSpc c = false) →
      (bc_loop cc title ps st).1 ≠ [] ∨
        ∃ c ∈ (bc_loop cc title ps st).2, isSpc c = false := by
  intro ps
  induction ps with
  | nil => intro st h; exact h
  | cons p rest ih =>
    intro st h
    exact ih _ (bc_step_preserve_nw cc title st p h)

theorem bc_loop_nw (cc : ℕ) (title : List Char) :
    ∀ (ps : List (List Char)) (st : List TextChunk × List Char),
      (∃ x ∈ ps, ∃ c ∈ x, isSpc c = false) →
      (bc_loop cc title ps st).1 ≠ [] ∨
        ∃ c ∈ (bc_loop cc title ps st).2, isSpc c = false := by
  intro ps
  induction ps with
  | nil =>
    rintro st ⟨x, hx, -⟩
    cases hx
  | cons p rest ih =>
    rintro st ⟨x, hx, hw⟩
    rcases List.mem_cons.mp hx with rfl | hmem
    · exact bc_loop_preserve_nw cc title rest _ (bc_step_nw cc title st x hw)
    · exact ih _ ⟨x, hmem, hw⟩

/-! ## Helper lemmas: `chapter_chunks` and the chapter loop -/

theorem chapter_paragraphs_mem (text p : List Char)
    (hp : p ∈ chapter_paragraphs text) : pstrip p = p ∧ p ≠ [] := by
  simp only [chapter_paragraphs, List.mem_filter, List.mem_map] at hp
  obtain ⟨⟨q, _, rfl⟩, hne⟩ := hp
  refine ⟨pstrip_idem q, ?_⟩
  simpa [List.isEmpty_iff] using hne

theorem chapter_chunks_bound (cc : ℕ) (hcc : 1 ≤ cc)
    (title text : List Char) :
    ∀ ch ∈ chapter_chunks cc title text, ch.text.length ≤ cc := by
  simp only [chapter_chunks]
  have hpieces : ∀ x ∈
      ((chapter_paragraphs text).map (split_oversized_paragraph cc)).flatten,
      x.length ≤ cc := by
    intro x hx
    obtain ⟨l, hl, hxl⟩ := List.mem_flatten.mp hx
    obtain ⟨p, hp, rfl⟩ := List.mem_map.mp hl
    obtain ⟨hstr, hne⟩ := chapter_paragraphs_mem text p hp
    exact split_oversized_bound cc hcc p hstr hne x hxl
  have hbd := bc_loop_bound cc title _ ([], []) hpieces (by simp) (by simp)
  split_ifs with hbuf
  · exact hbd.1
  · intro ch hch
    rcases List.mem_append.mp hch with h | h
    · exact hbd.1 ch h
    · rw [List.mem_singleton.mp h]
      exact hbd.2

theorem chapter_chunks_ne (cc : ℕ) (hcc : 1 ≤ cc) (title text : List Char)
    (hpar : chapter_paragraphs text ≠ []) :
    chapter_chunks cc title text ≠ [] := by
  simp only [chapter_chunks]
  obtain ⟨p, hp⟩ := List.exists_mem_of_ne_nil _ hpar
  obtain ⟨hstr, hne⟩ := chapter_paragraphs_mem text p hp
  have hw := split_oversized_nw cc hcc p hstr hne
  have hwp : ∃ x ∈
      ((chapter_paragraphs text).map (split_oversized_paragraph cc)).flatten,
      ∃ c ∈ x, isSpc c = false := by
    obtain ⟨x, hx, hc⟩ := hw
    exact ⟨x, List.mem_flatten.mpr
      ⟨split_oversized_paragraph cc p, List.mem_map.mpr ⟨p, hp, rfl⟩, hx⟩, hc⟩
  have hnw := bc_loop_nw cc title _ ([], []) hwp
  split_ifs with hbuf
  · rcases hnw with h | ⟨c, hc, -⟩
    · exact h
    · rw [List.isEmpty_iff.mp hbuf] at hc
      cases hc
  · simp

theorem stc_loop_bound (cc : ℕ) (hcc : 1 ≤ cc) :
    ∀ (chs : List (List Char × List Char))
      (st : List TextChunk × List (ℕ × List Char)),
      (∀ ch ∈ st.1, ch.text.length ≤ cc) →
      ∀ ch ∈ (stc_loop cc chs st).1, ch.text.length ≤ cc := by
  intro chs
  induction chs with
  | nil => intro st h; exact h
  | cons c rest ih =>
    intro st h
    apply ih
    simp only [stc_step]
    split_ifs with hskip
    · exact h
    · intro ch hch
      rcases List.mem_append.mp hch with h' | h'
      · exact h ch h'
      · exact chapter_chunks_bound cc hcc _ _ ch h'

theorem stc_loop_starts (cc : ℕ) (hcc : 1 ≤ cc) :
    ∀ (chs : List (List Char × List Char))
      (st : List TextChunk × List (ℕ × List Char)),
      List.Pairwise (· < ·) (st.2.map Prod.fst) →
      (∀ i ∈ st.2.map Prod.fst, i < st.1.length) →
      List.Pairwise (· < ·) ((stc_loop cc chs st).2.map Prod.fst) ∧
        ∀ i ∈ (stc_loop cc chs st).2.map Prod.fst,
          i < (stc_loop cc chs st).1.length := by
  intro chs
  induction chs with
  | nil => intro st h1 h2; exact ⟨h1, h2⟩
  | cons ch rest ih =>
    intro st h1 h2
    have hstep : List.Pairwise (· < ·) ((stc_step cc st ch).2.map Prod.fst) ∧
        ∀ i ∈ (stc_step cc st ch).2.map Prod.fst,
          i < (stc_step cc st ch).1.length := by
      simp only [stc_step]
      split_ifs with hskip
      · exact ⟨h1, h2⟩
      · have hne : chapter_chunks cc ch.1 ch.2 ≠ [] :=
          chapter_chunks_ne cc hcc ch.1 ch.2
            (by simpa [List.isEmpty_iff] using hskip)
        dsimp only
        constructor
        · rw [List.map_append]
          rw [List.pairwise_append]
          refine ⟨h1, by simp, ?_⟩
          intro a ha b hb
          rcases List.mem_map.mp hb with ⟨q, hq, rfl⟩
          rw [List.mem_singleton.mp hq]
          exact h2 a ha
        · intro i hi
          rw [List.map_append] at hi
          rw [List.length_append]
          have hpos : 0 < (chapter_chunks cc ch.1 ch.2).length :=
            List.length_pos.mpr hne
          rcases List.mem_append.mp hi with h' | h'
          · have := h2 i h'
            omega
          · rcases List.mem_map.mp h' with ⟨q, hq, rfl⟩
            rw [List.mem_singleton.mp hq]
            omega
    exact ih _ hstep.1 hstep.2

theorem stc_step_skip (cc : ℕ) (st : List TextChunk × List (ℕ × List Char))
    (ch : List Char × List Char) (h : chapter_paragraphs ch.2 = []) :
    stc_step cc st ch = st := by
  simp [stc_step, h]

theorem stc_loop_count (cc : ℕ) :
    ∀ (chs : List (List Char × List Char))
      (st : List TextChunk × List (ℕ × List Char)),
      (stc_loop cc chs st).2.length = st.2.length +
        chs.countP (fun ch => !(chapter_paragraphs ch.2).isEmpty) := by
  intro chs
  induction chs with
  | nil => intro st; simp [stc_loop]
  | cons ch rest ih =>
    intro st
    rw [stc_loop, ih, List.countP_cons]
    by_cases hskip : (chapter_paragraphs ch.2).isEmpty = true
    · rw [stc_step_skip cc st ch (List.isEmpty_iff.mp hskip)]
      simp [hskip]
    · simp only [stc_step, if_neg hskip]
      simp [hskip]
      omega

theorem stc_loop_append (cc : ℕ) :
    ∀ (l₁ l₂ : List (List Char × List Char))
      (st : List TextChunk × List (ℕ × List Char)),
      stc_loop cc (l₁ ++ l₂) st = stc_loop cc l₂ (stc_loop cc l₁ st) := by
  intro l₁
  induction l₁ with
  | nil => intro l₂ st; rfl
  | cons ch rest ih =>
    intro l₂ st
    rw [List.cons_append, stc_loop, stc_loop, ih]

/-! ## C2: every chunk respects the character bound -/

/-- C2: for every list of chapters and every `max_chars ≥ 1`, every chunk
returned by `split_text_to_chunks` has text of length at most `max_chars`:
the hard character split bounds even single oversized sentences, so the
bound holds unconditionally for positive limits. -/
theorem c2_chunk_length_bound (chapters : List (List Char × List Char))
    (cc : ℕ) (hcc : 1 ≤ cc) :
    ∀ ch ∈ (split_text_to_chunks chapters cc).1, ch.text.length ≤ cc := by
  rw [split_text_to_chunks]
  apply stc_loop_bound cc hcc chapters ([], [])
  intro ch hch
  cases hch

/-- Witness for C2 at the oversized single-word chapter `("T", "abcde")`
with `max_chars = 2`. -/
theorem c2_chunk_length_bound_witness :
    1 ≤ 2 ∧
      TextChunk.mk ['T'] ['a', 'b']
        ∈ (split_text_to_chunks [(['T'], ['a', 'b', 'c', 'd', 'e'])] 2).1 ∧
      (TextChunk.mk ['T'] ['a', 'b']).text.length ≤ 2 :=
  ⟨by decide, by decide,
    c2_chunk_length_bound [(['T'], ['a', 'b', 'c', 'd', 'e'])] 2 (by decide)
      _ (by decide)⟩

/-! ## C6: chapter-start indices -/

/-- C6: for every input with a positive character limit, the chapter-start
indices returned by `split_text_to_chunks` are strictly increasing, their
count equals the number of chapters with at least one non-empty paragraph,
and a chapter with no non-empty paragraphs contributes neither chunks nor a
chapter-start entry (removing it leaves the result unchanged). -/
theorem c6_chapter_starts (chapters : List (List Char × List Char))
    (cc : ℕ) (hcc : 1 ≤ cc) :
    List.Pairwise (· < ·)
        ((split_text_to_chunks chapters cc).2.map Prod.fst) ∧
      (split_text_to_chunks chapters cc).2.length
        = chapters.countP (fun ch => !(chapter_paragraphs ch.2).isEmpty) ∧
      ∀ pre ch post, chapters = pre ++ ch :: post →
        chapter_paragraphs ch.2 = [] →
        split_text_to_chunks chapters cc
          = split_text_to_chunks (pre ++ post) cc := by
  refine ⟨(stc_loop_starts cc hcc chapters ([], []) (by simp)
    (by simp)).1, ?_, ?_⟩
  · simpa using stc_loop_count cc chapters ([], [])
  · rintro pre ch post rfl hch
    rw [split_text_to_chunks, split_text_to_chunks, stc_loop_append,
      stc_loop_append]
    rw [stc_loop]
    rw [stc_step_skip cc _ ch hch]

/-- Witness for C6: one non-empty and one empty chapter with
`max_chars = 1`. -/
theorem c6_chapter_starts_witness :
    1 ≤ 1 ∧
      (split_text_to_chunks [(['A'], ['x']), (['B'], [])] 1).2.length = 1 ∧
      split_text_to_chunks [(['A'], ['x']), (['B'], [])] 1
        = split_text_to_chunks [(['A'], ['x'])] 1 := by
  refine ⟨by decide, ?_, ?_⟩
  · rw [(c6_chapter_starts [(['A'], ['x']), (['B'], [])] 1 (by decide)).2.1]
    decide
  · have h := (c6_chapter_starts [(['A'], ['x']), (['B'], [])] 1
      (by decide)).2.2 [(['A'], ['x'])] (['B'], []) [] rfl (by decide)
    simpa using h

/-! ## Helper lemmas: `joinSp` and the round-trip law -/

theorem joinSp_append_singleton (l : List (List Char)) (x : List Char) :
    joinSp (l ++ [x]) = if l.isEmpty then x else joinSp l ++ ' ' :: x := by
  induction l with
  | nil => simp [joinSp]
  | cons a t ih =>
    cases t with
    | nil => simp [joinSp]
    | cons b u =>
      have h1 : joinSp ((a :: b :: u) ++ [x])
          = a ++ ' ' :: joinSp ((b :: u) ++ [x]) := by
        simp [joinSp]
      rw [h1, ih]
      simp [joinSp]

theorem joinSp_ne_nil (l : List (List Char)) (h : ∀ x ∈ l, x ≠ [])
    (hl : l ≠ []) : joinSp l ≠ [] := by
  cases l with
  | nil => exact absurd rfl hl
  | cons a t =>
    cases t with
    | nil => exact h a (by simp)
    | cons b u => simp [joinSp]

theorem joinSp_append (X R : List (List Char)) :
    joinSp (X ++ R) = if X.isEmpty then joinSp R
      else if R.isEmpty then joinSp X
      else joinSp X ++ ' ' :: joinSp R := by
  induction X with
  | nil => simp
  | cons a t ih =>
    cases t with
    | nil =>
      cases R with
      | nil => simp [joinSp]
      | cons r rs => simp [joinSp]
    | cons b u =>
      have h1 : joinSp ((a :: b :: u) ++ R)
          = a ++ ' ' :: joinSp ((b :: u) ++ R) := by
        simp [joinSp]
      rw [h1, ih]
      cases R with
      | nil => simp [joinSp]
      | cons r rs => simp [joinSp]

theorem joinSp_append_congr (X Y R : List (List Char))
    (hXY : joinSp X = joinSp Y) (hX : X ≠ []) (hY : Y ≠ []) :
    joinSp (X ++ R) = joinSp (Y ++ R) := by
  rw [joinSp_append, joinSp_append, hXY]
  have hX' : X.isEmpty = false := by simpa [List.isEmpty_iff] using hX
  have hY' : Y.isEmpty = false := by simpa [List.isEmpty_iff] using hY
  rw [hX', hY']

theorem bc_step_join (cc : ℕ) (title : List Char)
    (st : List TextChunk × List Char) (piece : List Char)
    (hps : pstrip piece = piece) (hpn : piece ≠ [])
    (hbs : pstrip st.2 = st.2) (hts : ∀ ch ∈ st.1, ch.text ≠ []) :
    joinSp ((bc_step cc title st piece).1.map TextChunk.text ++
        (if (bc_step cc title st piece).2.isEmpty then []
          else [(bc_step cc title st piece).2]))
      = joinSp ((st.1.map TextChunk.text ++
          (if st.2.isEmpty then [] else [st.2])) ++ [piece]) ∧
    pstrip (bc_step cc title st piece).2 = (bc_step cc title st piece).2 ∧
    (∀ ch ∈ (bc_step cc title st piece).1, ch.text ≠ []) ∧
    (bc_step cc title st piece).1.map TextChunk.text ++
        (if (bc_step cc title st piece).2.isEmpty then []
          else [(bc_step cc title st piece).2]) ≠ [] := by
  have hpe : piece.isEmpty = false := by
    simpa [List.isEmpty_iff] using hpn
  by_cases hfit : st.2.length + piece.length + 1 ≤ cc
  · have hstep : bc_step cc title st piece
        = (st.1, pstrip (st.2 ++ ' ' :: piece)) := by
      simp [bc_step, hfit]
    rw [hstep]
    dsimp only
    by_cases hb2 : st.2.isEmpty
    · have hb2' : st.2 = [] := List.isEmpty_iff.mp hb2
      have hbuf' : pstrip (st.2 ++ ' ' :: piece) = piece := by
        rw [hb2']
        simpa using pstrip_spc_cons piece hps
      rw [hbuf', hpe, if_pos hb2]
      simp only [Bool.false_eq_true, if_false]
      exact ⟨by simp, hps, hts, by simp⟩
    · have hb2' : st.2 ≠ [] := by simpa [List.isEmpty_iff] using hb2
      have hbuf' : pstrip (st.2 ++ ' ' :: piece) = st.2 ++ ' ' :: piece :=
        pstrip_append_sep st.2 piece hbs hps hb2' hpn
      rw [hbuf']
      have hne2 : (st.2 ++ ' ' :: piece).isEmpty = false := by
        simp [List.isEmpty_iff]
      rw [hne2, if_neg hb2]
      simp only [Bool.false_eq_true, if_false]
      refine ⟨?_, hbuf', hts, by simp⟩
      rw [joinSp_append_singleton, joinSp_append_singleton,
        joinSp_append_singleton]
      by_cases hM : (st.1.map TextChunk.text).isEmpty
      · rw [if_pos hM]
        have hMS : (st.1.map TextChunk.text ++ [st.2]).isEmpty = false := by
          simp
        rw [hMS, if_pos hM]
        simp
      · rw [if_neg hM]
        have hMS : (st.1.map TextChunk.text ++ [st.2]).isEmpty = false := by
          simp
        rw [hMS, if_neg hM]
        simp
  · by_cases hb2 : st.2.isEmpty
    · have hstep : bc_step cc title st piece = (st.1, piece) := by
        simp [bc_step, hfit, hb2]
      rw [hstep]
      dsimp only
      rw [hpe, if_pos hb2]
      simp only [Bool.false_eq_true, if_false]
      exact ⟨by simp, hps, hts, by simp⟩
    · have hb2' : st.2 ≠ [] := by simpa [List.isEmpty_iff] using hb2
      have hstep : bc_step cc title st piece
          = (st.1 ++ [⟨title, st.2⟩], piece) := by
        simp [bc_step, hfit, hb2]
      rw [hstep]
      dsimp only
      rw [hpe, if_neg hb2]
      simp only [Bool.false_eq_true, if_false]
      refine ⟨by simp, hps, ?_, by simp⟩
      intro ch hch
      rcases List.mem_append.mp hch with h | h
      · exact hts ch h
      · rw [List.mem_singleton.mp h]
        exact hb2'

theorem bc_loop_join (cc : ℕ) (title : List Char) :
    ∀ (ps : List (List Char)) (st : List TextChunk × List Char),
      (∀ p ∈ ps, pstrip p = p ∧ p ≠ []) →
      pstrip st.2 = st.2 → (∀ ch ∈ st.1, ch.text ≠ []) →
      joinSp ((bc_loop cc title ps st).1.map TextChunk.text ++
          (if (bc_loop cc title ps st).2.isEmpty then []
            else [(bc_loop cc title ps st).2]))
        = joinSp ((st.1.map TextChunk.text ++
            (if st.2.isEmpty then [] else [st.2])) ++ ps) := by
  intro ps
  induction ps with
  | nil =>
    intro st _ _ _
    simp [bc_loop]
  | cons p rest ih =>
    intro st hps hbs hts
    obtain ⟨hstep_join, hstep_str, hstep_tx, hstep_ne⟩ :=
      bc_step_join cc title st p (hps p (by simp)).1 (hps p (by simp)).2
        hbs hts
    rw [bc_loop]
    rw [ih (bc_step cc title st p) (fun q hq => hps q (by simp [hq]))
      hstep_str hstep_tx]
    have hcongr := joinSp_append_congr
      ((bc_step cc title st p).1.map TextChunk.text ++
        (if (bc_step cc title st p).2.isEmpty then []
          else [(bc_step cc title st p).2]))
      ((st.1.map TextChunk.text ++
        (if st.2.isEmpty then [] else [st.2])) ++ [p])
      rest hstep_join hstep_ne (by simp)
    rw [hcongr]
    simp

theorem flatten_map_singleton (f : List Char → List (List Char)) :
    ∀ ps : List (List Char), (∀ p ∈ ps, f p = [p]) →
      (ps.map f).flatten = ps := by
  intro ps
  induction ps with
  | nil => intro _; rfl
  | cons p rest ih =>
    intro h
    simp only [List.map_cons, List.flatten_cons, h p (by simp)]
    rw [ih (fun q hq => h q (by simp [hq]))]
    rfl

theorem chapter_chunks_nil (cc : ℕ) (title text : List Char)
    (h : chapter_paragraphs text = []) :
    chapter_chunks cc title text = [] := by
  simp [chapter_chunks, h, bc_loop]

theorem chapter_chunks_join (cc : ℕ) (_hcc : 1 ≤ cc)
    (title text : List Char)
    (hfit : ∀ p ∈ chapter_paragraphs text, p.length ≤ cc) :
    joinSp ((chapter_chunks cc title text).map TextChunk.text)
      = chapter_cleaned text := by
  have hpieces :
      ((chapter_paragraphs text).map (split_oversized_paragraph cc)).flatten
        = chapter_paragraphs text := by
    apply flatten_map_singleton
    intro p hp
    simp [split_oversized_paragraph, if_pos (hfit p hp)]
  simp only [chapter_chunks, hpieces]
  have hj := bc_loop_join cc title (chapter_paragraphs text) ([], [])
    (fun p hp => chapter_paragraphs_mem text p hp) rfl (by simp)
  simp only [List.map_nil, List.nil_append] at hj
  rw [chapter_cleaned]
  by_cases hbuf : (bc_loop cc title (chapter_paragraphs text)
      ([], [])).2.isEmpty
  · rw [if_pos hbuf]
    rw [if_pos hbuf] at hj
    simpa using hj
  · rw [if_neg hbuf]
    rw [if_neg hbuf] at hj
    have : (bc_loop cc title (chapter_paragraphs text) ([], [])).1
        ++ [(⟨title, (bc_loop cc title (chapter_paragraphs text)
          ([], [])).2⟩ : TextChunk)] ≠ [] := by simp
    rw [List.map_append]
    simpa using hj

theorem stc_loop_chunks (cc : ℕ) :
    ∀ (chs : List (List Char × List Char))
      (st : List TextChunk × List (ℕ × List Char)),
      (stc_loop cc chs st).1 = st.1 ++
        (chs.map (fun ch => chapter_chunks cc ch.1 ch.2)).flatten := by
  intro chs
  induction chs with
  | nil => intro st; simp [stc_loop]
  | cons ch rest ih =>
    intro st
    rw [stc_loop, ih]
    by_cases hskip : (chapter_paragraphs ch.2).isEmpty
    · rw [stc_step_skip cc st ch (List.isEmpty_iff.mp hskip)]
      simp only [List.map_cons, List.flatten_cons]
      rw [chapter_chunks_nil cc ch.1 ch.2 (List.isEmpty_iff.mp hskip)]
      simp
    · simp only [stc_step, if_neg hskip]
      simp

/-! ## C5 (amended): the round-trip law for chapters without hard splits -/

/-- C5 amended: `split_text_to_chunks` is the concatenation of each
chapter's chunks, and for every chapter whose non-empty paragraphs all fit
within `max_chars`, joining that chapter's chunk texts with a single space
at each join reproduces the chapter's cleaned text (its stripped non-empty
paragraphs joined by single spaces).  For a chapter with an oversized
paragraph the law fails (see the counterexample): the sentence split
collapses whitespace runs after sentence punctuation and the hard character
split introduces joins inside words. -/
theorem c5_roundtrip_amended (chapters : List (List Char × List Char))
    (cc : ℕ) (hcc : 1 ≤ cc) :
    (split_text_to_chunks chapters cc).1
        = (chapters.map (fun ch => chapter_chunks cc ch.1 ch.2)).flatten ∧
      ∀ ch ∈ chapters, (∀ p ∈ chapter_paragraphs ch.2, p.length ≤ cc) →
        joinSp ((chapter_chunks cc ch.1 ch.2).map TextChunk.text)
          = chapter_cleaned ch.2 := by
  constructor
  · rw [split_text_to_chunks]
    simpa using stc_loop_chunks cc chapters ([], [])
  · intro ch _ hfit
    exact chapter_chunks_join cc hcc ch.1 ch.2 hfit

/-- Witness for the amended C5 at the two-paragraph chapter
`("T", "hi\nyo")` with `max_chars = 10`. -/
theorem c5_roundtrip_amended_witness :
    1 ≤ 10 ∧
      joinSp ((chapter_chunks 10 ['T'] ['h', 'i', '\n', 'y', 'o']).map
          TextChunk.text)
        = chapter_cleaned ['h', 'i', '\n', 'y', 'o'] :=
  ⟨by decide,
    (c5_roundtrip_amended [(['T'], ['h', 'i', '\n', 'y', 'o'])] 10
      (by decide)).2 (['T'], ['h', 'i', '\n', 'y', 'o']) (by decide)
      (by decide)⟩

/-! ## Helper lemmas: sequential runner -/

theorem seq_chunk_step_trace_mono (A E : Type) (env : SeqEnv A E)
    (useCk resume hasState : Bool) (hb : ℕ → Bool) (elapsed : ℕ → ℕ)
    (total : ℕ) (st : SeqSt) (k : ℕ) :
    st.trace <+: (seq_chunk_step A E env useCk resume hasState hb elapsed
      total st k).1.trace := by
  simp only [seq_chunk_step, seq_infer, seq_finish]
  split_ifs <;> cases env.load k <;> cases (env.generate k).failure <;>
    simp [List.prefix_append]

theorem seq_chunk_step_ckpts_mono (A E : Type) (env : SeqEnv A E)
    (useCk resume hasState : Bool) (hb : ℕ → Bool) (elapsed : ℕ → ℕ)
    (total : ℕ) (st : SeqSt) (k : ℕ) :
    st.savedCkpts <+: (seq_chunk_step A E env useCk resume hasState hb
      elapsed total st k).1.savedCkpts := by
  simp only [seq_chunk_step, seq_infer, seq_finish]
  split_ifs <;> cases env.load k <;> cases (env.generate k).failure <;>
    simp [List.prefix_append]

theorem seq_chunk_step_gen (A E : Type) (env : SeqEnv A E)
    (useCk resume hasState : Bool) (hb : ℕ → Bool) (elapsed : ℕ → ℕ)
    (total : ℕ) (st : SeqSt) (k : ℕ) :
    (seq_chunk_step A E env useCk resume hasState hb elapsed total
        st k).1.generateCalls = st.generateCalls ∨
      (seq_chunk_step A E env useCk resume hasState hb elapsed total
        st k).1.generateCalls = st.generateCalls ++ [k] := by
  simp only [seq_chunk_step, seq_infer, seq_finish]
  split_ifs <;> cases env.load k <;> cases (env.generate k).failure <;>
    simp

theorem seq_chunk_step_completed (A E : Type) (env : SeqEnv A E)
    (useCk resume hasState : Bool) (hb : ℕ → Bool) (elapsed : ℕ → ℕ)
    (total : ℕ) (st : SeqSt) (k : ℕ) (j : ℕ) (hj : j ≠ k) :
    j ∈ (seq_chunk_step A E env useCk resume hasState hb elapsed total
        st k).1.completed ↔ j ∈ st.completed := by
  simp only [seq_chunk_step, seq_infer, seq_finish]
  split_ifs <;> cases env.load k <;> cases (env.generate k).failure <;>
    simp [Finset.mem_insert, Finset.mem_erase, hj]

theorem seq_go_trace_mono (A E : Type) (env : SeqEnv A E)
    (useCk resume hasState : Bool) (hb : ℕ → Bool) (elapsed : ℕ → ℕ)
    (total : ℕ) :
    ∀ (n k : ℕ) (st : SeqSt),
      st.trace <+: (seq_go A E env useCk resume hasState hb elapsed total
          n k st).1.trace ∧
      st.savedCkpts <+: (seq_go A E env useCk resume hasState hb elapsed
          total n k st).1.savedCkpts ∧
      ∃ dg, (seq_go A E env useCk resume hasState hb elapsed total
          n k st).1.generateCalls = st.generateCalls ++ dg := by
  intro n
  induction n with
  | zero =>
    intro k st
    exact ⟨List.prefix_rfl, List.prefix_rfl, [], by simp [seq_go]⟩
  | succ n ih =>
    intro k st
    rw [seq_go]
    cases hstep : seq_chunk_step A E env useCk resume hasState hb elapsed
      total st k with
    | mk st' r =>
      have ht := seq_chunk_step_trace_mono A E env useCk resume hasState hb
        elapsed total st k
      have hc := seq_chunk_step_ckpts_mono A E env useCk resume hasState hb
        elapsed total st k
      have hg := seq_chunk_step_gen A E env useCk resume hasState hb
        elapsed total st k
      rw [hstep] at ht hc hg
      cases r with
      | some e =>
        refine ⟨ht, hc, ?_⟩
        rcases hg with h | h
        · exact ⟨[], by rw [List.append_nil]; exact h⟩
        · exact ⟨[k], h⟩
      | none =>
        obtain ⟨iht, ihc, dg, ihg⟩ := ih (k + 1) st'
        refine ⟨ht.trans iht, hc.trans ihc, ?_⟩
        rcases hg with h | h
        · exact ⟨dg, by rw [ihg, h]⟩
        · exact ⟨[k] ++ dg, by rw [ihg, h]; simp⟩

theorem seq_go_completed_lt (A E : Type) (env : SeqEnv A E)
    (useCk resume hasState : Bool) (hb : ℕ → Bool) (elapsed : ℕ → ℕ)
    (total : ℕ) :
    ∀ (n k : ℕ) (st : SeqSt) (j : ℕ), j < k →
      (j ∈ (seq_go A E env useCk resume hasState hb elapsed total
          n k st).1.completed ↔ j ∈ st.completed) := by
  intro n
  induction n with
  | zero => intro k st j _; simp [seq_go]
  | succ n ih =>
    intro k st j hj
    rw [seq_go]
    cases hstep : seq_chunk_step A E env useCk resume hasState hb elapsed
      total st k with
    | mk st' r =>
      have hcm := seq_chunk_step_completed A E env useCk resume hasState hb
        elapsed total st k j (by omega)
      rw [hstep] at hcm
      cases r with
      | some e => exact hcm
      | none => exact (ih (k + 1) st' j (by omega)).trans hcm

theorem seq_go_gen_sublist (A E : Type) (env : SeqEnv A E)
    (useCk resume hasState : Bool) (hb : ℕ → Bool) (elapsed : ℕ → ℕ)
    (total : ℕ) :
    ∀ (n k : ℕ) (st : SeqSt),
      (seq_go A E env useCk resume hasState hb elapsed total
          n k st).1.generateCalls.Sublist
        (st.generateCalls ++ List.range' k n) := by
  intro n
  induction n with
  | zero => intro k st; simp [seq_go]
  | succ n ih =>
    intro k st
    rw [seq_go]
    cases hstep : seq_chunk_step A E env useCk resume hasState hb elapsed
      total st k with
    | mk st' r =>
      have hg := seq_chunk_step_gen A E env useCk resume hasState hb
        elapsed total st k
      rw [hstep] at hg
      have hrange : List.range' k (n + 1) = k :: List.range' (k + 1) n :=
        List.range'_succ k n 1
      cases r with
      | some e =>
        dsimp only
        rw [hrange]
        rcases hg with h | h
        · have h' : st'.generateCalls = st.generateCalls := h
          rw [h']
          exact List.sublist_append_left _ _
        · have h' : st'.generateCalls = st.generateCalls ++ [k] := h
          rw [h']
          exact List.Sublist.append (List.Sublist.refl _)
            (List.cons_sublist_cons.mpr (List.nil_sublist _))
      | none =>
        have hrec := ih (k + 1) st'
        dsimp only
        rcases hg with h | h
        · have h' : st'.generateCalls = st.generateCalls := h
          rw [h'] at hrec
          refine hrec.trans ?_
          rw [hrange]
          exact List.Sublist.append (List.Sublist.refl _)
            (List.sublist_cons_self _ _)
        · have h' : st'.generateCalls = st.generateCalls ++ [k] := h
          rw [h'] at hrec
          refine hrec.trans ?_
          rw [hrange, List.append_assoc]
          exact List.Sublist.refl _

theorem seq_chunk_step_missing (A E : Type) (env : SeqEnv A E)
    (hb : ℕ → Bool) (elapsed : ℕ → ℕ) (total : ℕ) (st : SeqSt) (k : ℕ)
    (hmem : k ∈ st.completed) (hload : env.load k = none)
    (hfail : (env.generate k).failure = none) :
    (seq_chunk_step A E env true true true hb elapsed total st k).2
        = none ∧
    (∃ d, (seq_chunk_step A E env true true true hb elapsed total
        st k).1.trace = st.trace ++
        ([SeqEv.ckptMissingAudio k, SeqEv.workerInfer k,
          SeqEv.ckptSaved k] ++ d)) ∧
    (seq_chunk_step A E env true true true hb elapsed total
        st k).1.savedCkpts = st.savedCkpts ++
        [(st.completed.erase k).sort (· ≤ ·),
          (insert k (st.completed.erase k)).sort (· ≤ ·)] ∧
    (seq_chunk_step A E env true true true hb elapsed total
        st k).1.completed = insert k (st.completed.erase k) ∧
    (seq_chunk_step A E env true true true hb elapsed total
        st k).1.generateCalls = st.generateCalls ++ [k] := by
  refine ⟨?_, ⟨[SeqEv.timingEv k (elapsed k)] ++
      (if hb k then [SeqEv.heartbeatEv] else []) ++
      [SeqEv.progressEv (st.processedCount + 1) total], ?_⟩, ?_, ?_, ?_⟩ <;>
    simp [seq_chunk_step, seq_infer, seq_finish, hmem, hload, hfail]

theorem seq_go_c4 (A E : Type) (env : SeqEnv A E) (hb : ℕ → Bool)
    (elapsed : ℕ → ℕ) (total : ℕ) (idx : ℕ)
    (hload : env.load idx = none)
    (hfail : (env.generate idx).failure = none) :
    ∀ (n k : ℕ) (st : SeqSt), k ≤ idx → idx < k + n →
      idx ∈ st.completed →
      (seq_go A E env true true true hb elapsed total n k st).2 = none →
      [SeqEv.ckptMissingAudio idx, SeqEv.workerInfer idx,
          SeqEv.ckptSaved idx].Sublist
        (seq_go A E env true true true hb elapsed total n k st).1.trace ∧
      (∃ s₁ s₂, [s₁, s₂].Sublist
          (seq_go A E env true true true hb elapsed total
            n k st).1.savedCkpts ∧ idx ∉ s₁ ∧ idx ∈ s₂) ∧
      idx ∈ (seq_go A E env true true true hb elapsed total
        n k st).1.completed ∧
      idx ∈ (seq_go A E env true true true hb elapsed total
        n k st).1.generateCalls := by
  intro n
  induction n with
  | zero => intro k st hk hlt; omega
  | succ n ih =>
    intro k st hk hlt hmem hrun
    rcases Nat.eq_or_lt_of_le hk with rfl | hklt
    · -- this is the step that heals the missing artifact
      obtain ⟨hok, ⟨d, htr⟩, hck, hcm, hgc⟩ :=
        seq_chunk_step_missing A E env hb elapsed total st k hmem hload
          hfail
      rw [seq_go] at hrun ⊢
      cases hstep : seq_chunk_step A E env true true true hb elapsed total
        st k with
      | mk st' r =>
        rw [hstep] at hok htr hck hcm hgc
        have hr : r = none := hok
        subst hr
        obtain ⟨imt, imc, dg, img⟩ := seq_go_trace_mono A E env true true
          true hb elapsed total n (k + 1) st'
        have hcmp := seq_go_completed_lt A E env true true true hb elapsed
          total n (k + 1) st' k (by omega)
        refine ⟨?_, ?_, ?_, ?_⟩
        · have h1 : [SeqEv.ckptMissingAudio k, SeqEv.workerInfer k,
              SeqEv.ckptSaved k].Sublist st'.trace := by
            rw [htr]
            exact (List.sublist_append_left _ d).trans
              (List.sublist_append_right _ _)
          exact h1.trans imt.sublist
        · refine ⟨(st.completed.erase k).sort (· ≤ ·),
            (insert k (st.completed.erase k)).sort (· ≤ ·), ?_, ?_, ?_⟩
          · have h1 : [(st.completed.erase k).sort (· ≤ ·),
                (insert k (st.completed.erase k)).sort (· ≤ ·)].Sublist
                st'.savedCkpts := by
              rw [hck]
              exact List.sublist_append_right _ _
            exact h1.trans imc.sublist
          · simp [Finset.mem_sort]
          · simp [Finset.mem_sort]
        · rw [hcmp, hcm]
          simp
        · rw [img, hgc]
          simp
    · rw [seq_go] at hrun ⊢
      cases hstep : seq_chunk_step A E env true true true hb elapsed total
        st k with
      | mk st' r =>
        rw [hstep] at hrun
        cases r with
        | some e => cases hrun
        | none =>
          have hmem' : idx ∈ st'.completed := by
            have := seq_chunk_step_completed A E env true true true hb
              elapsed total st k idx (by omega)
            rw [hstep] at this
            exact this.mpr hmem
          exact ih (k + 1) st' (by omega) (by omega) hmem' hrun

/-! ## C4: self-healing of missing checkpoint artifacts -/

/-- C4: in a checkpointed resume run of the sequential pipeline that
completes without error, every chunk index marked completed whose artifact
fails to load is removed from the completed set with the checkpoint
persisted (first snapshot without the index), a MISSING_AUDIO checkpoint
event is emitted, inference is re-run for that chunk, and after the fresh
artifact is saved the index is back in the completed set (later snapshot
with the index); the trace shows MISSING_AUDIO, then the INFER worker
event, then SAVED, in that order.  Moreover no inference is ever retried:
in every run (failing ones included) `backend.generate` is invoked at most
once per chunk index. -/
theorem c4_missing_audio_selfheal (A E : Type) (env : SeqEnv A E)
    (hb : ℕ → Bool) (elapsed : ℕ → ℕ) (N : ℕ) (completed₀ : Finset ℕ)
    (idx : ℕ) (hidx : idx < N) (hmem : idx ∈ completed₀)
    (hload : env.load idx = none)
    (hfail : (env.generate idx).failure = none)
    (hrun : (run_sequential_pipeline A E env true true true hb elapsed N
      completed₀).2 = none) :
    [SeqEv.ckptMissingAudio idx, SeqEv.workerInfer idx,
        SeqEv.ckptSaved idx].Sublist
      (run_sequential_pipeline A E env true true true hb elapsed N
        completed₀).1.trace ∧
    (∃ s₁ s₂, [s₁, s₂].Sublist
        (run_sequential_pipeline A E env true true true hb elapsed N
          completed₀).1.savedCkpts ∧ idx ∉ s₁ ∧ idx ∈ s₂) ∧
    idx ∈ (run_sequential_pipeline A E env true true true hb elapsed N
      completed₀).1.completed ∧
    idx ∈ (run_sequential_pipeline A E env true true true hb elapsed N
      completed₀).1.generateCalls ∧
    ∀ (env' : SeqEnv A E) (useCk resume hasState : Bool) (hb' : ℕ → Bool)
      (elapsed' : ℕ → ℕ) (N' : ℕ) (c₀ : Finset ℕ),
      (run_sequential_pipeline A E env' useCk resume hasState hb' elapsed'
        N' c₀).1.generateCalls.Nodup := by
  have hmain := seq_go_c4 A E env hb elapsed N idx hload hfail N 0
    (seq_init N completed₀) (by omega) (by omega) hmem hrun
  refine ⟨hmain.1, hmain.2.1, hmain.2.2.1, hmain.2.2.2, ?_⟩
  intro env' useCk resume hasState hb' elapsed' N' c₀
  have hsub := seq_go_gen_sublist A E env' useCk resume hasState hb'
    elapsed' N' N' 0 (seq_init N' c₀)
  simp only [seq_init, List.nil_append] at hsub
  exact hsub.nodup (List.nodup_range' _ _)

/-- Witness for C4: a single-chunk resume whose only artifact is missing. -/
theorem c4_missing_audio_selfheal_witness :
    (0 < 1 ∧ 0 ∈ ({0} : Finset ℕ) ∧
      (run_sequential_pipeline (List Int) ℕ
        ⟨fun _ => ⟨[[1]], none⟩, fun _ => none, id⟩ true true true
        (fun _ => false) (fun _ => 0) 1 {0}).2 = none) ∧
    [SeqEv.ckptMissingAudio 0, SeqEv.workerInfer 0,
        SeqEv.ckptSaved 0].Sublist
      (run_sequential_pipeline (List Int) ℕ
        ⟨fun _ => ⟨[[1]], none⟩, fun _ => none, id⟩ true true true
        (fun _ => false) (fun _ => 0) 1 {0}).1.trace ∧
    0 ∈ (run_sequential_pipeline (List Int) ℕ
      ⟨fun _ => ⟨[[1]], none⟩, fun _ => none, id⟩ true true true
      (fun _ => false) (fun _ => 0) 1 {0}).1.generateCalls :=
  ⟨⟨by decide, by decide, by decide⟩,
    (c4_missing_audio_selfheal (List Int) ℕ
      ⟨fun _ => ⟨[[1]], none⟩, fun _ => none, id⟩ (fun _ => false)
      (fun _ => 0) 1 {0} 0 (by decide) (by decide) rfl rfl (by decide)).1,
    (c4_missing_audio_selfheal (List Int) ℕ
      ⟨fun _ => ⟨[[1]], none⟩, fun _ => none, id⟩ (fun _ => false)
      (fun _ => 0) 1 {0} 0 (by decide) (by decide) rfl rfl
      (by decide)).2.2.2.1⟩

theorem seq_chunk_step_offsets (A E : Type) (env : SeqEnv A E)
    (useCk resume hasState : Bool) (hb : ℕ → Bool) (elapsed : ℕ → ℕ)
    (total : ℕ) (st : SeqSt) (k : ℕ) :
    (seq_chunk_step A E env useCk resume hasState hb elapsed total
      st k).1.offsets = st.offsets.set k st.cumulative := by
  simp only [seq_chunk_step, seq_infer, seq_finish]
  split_ifs <;> cases env.load k <;> cases (env.generate k).failure <;>
    simp

theorem seq_chunk_step_c10_cum (A E : Type) (env : SeqEnv A E)
    (useCk resume hasState : Bool) (hb : ℕ → Bool) (elapsed : ℕ → ℕ)
    (total : ℕ) (st : SeqSt) (k : ℕ) (c₀ : Finset ℕ)
    (hkc : k ∈ st.completed ↔ k ∈ c₀)
    (hok : (seq_chunk_step A E env useCk resume hasState hb elapsed total
      st k).2 = none) :
    (seq_chunk_step A E env useCk resume hasState hb elapsed total
        st k).1.cumulative
      = st.cumulative + seq_written A E env useCk resume c₀ k ∧
    (seq_chunk_step A E env useCk resume hasState hb elapsed total
        st k).1.sink.length
      = st.sink.length + seq_written A E env useCk resume c₀ k := by
  by_cases hcond : useCk = true ∧ resume = true ∧ k ∈ st.completed
  · have hcond' : useCk = true ∧ resume = true ∧ k ∈ c₀ :=
      ⟨hcond.1, hcond.2.1, hkc.mp hcond.2.2⟩
    have hu : useCk = true := hcond.1
    subst hu
    cases hload : env.load k with
    | some la =>
      cases la with
      | inl p =>
        constructor <;>
          simp [seq_chunk_step, seq_infer, seq_finish, seq_written, hcond,
            hcond', hload]
      | inr a =>
        constructor <;>
          simp [seq_chunk_step, seq_infer, seq_finish, seq_written, hcond,
            hcond', hload]
    | none =>
      cases hfail : (env.generate k).failure with
      | some e =>
        exfalso
        simp [seq_chunk_step, seq_infer, seq_finish, hcond, hload,
          hfail] at hok
      | none =>
        constructor <;>
          simp [seq_chunk_step, seq_infer, seq_finish, seq_written, hcond,
            hcond', hload, hfail]
  · have hcond' : ¬(useCk = true ∧ resume = true ∧ k ∈ c₀) := by
      intro h
      exact hcond ⟨h.1, h.2.1, hkc.mpr h.2.2⟩
    cases hfail : (env.generate k).failure with
    | some e =>
      exfalso
      simp [seq_chunk_step, seq_infer, seq_finish, hcond, hfail] at hok
    | none =>
      cases hu : useCk with
      | false =>
        constructor <;>
          simp [seq_chunk_step, seq_infer, seq_finish, seq_written, hfail,
            hu]
      | true =>
        subst hu
        have hcond2 : ¬(resume = true ∧ k ∈ st.completed) := fun h =>
          hcond ⟨rfl, h.1, h.2⟩
        have hcond2' : ¬(resume = true ∧ k ∈ c₀) := fun h =>
          hcond' ⟨rfl, h.1, h.2⟩
        constructor <;>
          simp [seq_chunk_step, seq_infer, seq_finish, seq_written,
            hcond2, hcond2', hfail]

theorem seq_c10_inv_next (A E : Type) (env : SeqEnv A E)
    (useCk resume : Bool) (c₀ : Finset ℕ) (N k : ℕ) (st st' : SeqSt)
    (hk : k < N)
    (hinv : seq_c10_inv A E env useCk resume c₀ N k st)
    (hoff : st'.offsets = st.offsets.set k st.cumulative)
    (hcum : st'.cumulative
      = st.cumulative + seq_written A E env useCk resume c₀ k)
    (hsink : st'.sink.length
      = st.sink.length + seq_written A E env useCk resume c₀ k)
    (hcomp : ∀ j, k + 1 ≤ j → (j ∈ st'.completed ↔ j ∈ st.completed)) :
    seq_c10_inv A E env useCk resume c₀ N (k + 1) st' := by
  obtain ⟨hlen, hlo, hhi, hc, hs, hm⟩ := hinv
  refine ⟨?_, ?_, ?_, ?_, ?_, ?_⟩
  · rw [hoff, List.length_set, hlen]
  · intro i hi
    rw [hoff, List.getElem?_set]
    by_cases hik : k = i
    · subst hik
      rw [if_pos rfl, if_pos (by omega), hc]
    · rw [if_neg hik]
      exact hlo i (by omega)
  · intro i h1 h2
    rw [hoff, List.getElem?_set, if_neg (by omega)]
    exact hhi i (by omega) h2
  · rw [hcum, hc, Finset.sum_range_succ]
  · rw [hsink, hs, hcum, hc]
  · intro j hj
    exact (hcomp j hj).trans (hm j (by omega))

theorem seq_go_c10 (A E : Type) (env : SeqEnv A E)
    (useCk resume hasState : Bool) (hb : ℕ → Bool) (elapsed : ℕ → ℕ)
    (N : ℕ) (c₀ : Finset ℕ) :
    ∀ (n k : ℕ) (st : SeqSt), k + n = N →
      seq_c10_inv A E env useCk resume c₀ N k st →
      (seq_go A E env useCk resume hasState hb elapsed N n k st).2
        = none →
      seq_c10_inv A E env useCk resume c₀ N N
        (seq_go A E env useCk resume hasState hb elapsed N n k st).1 := by
  intro n
  induction n with
  | zero =>
    intro k st hkn hinv _
    have hk : k = N := by omega
    subst hk
    simpa [seq_go] using hinv
  | succ n ih =>
    intro k st hkn hinv hrun
    rw [seq_go] at hrun ⊢
    cases hstep : seq_chunk_step A E env useCk resume hasState hb elapsed
      N st k with
    | mk st' r =>
      rw [hstep] at hrun
      cases r with
      | some e => cases hrun
      | none =>
        have hok : (seq_chunk_step A E env useCk resume hasState hb
            elapsed N st k).2 = none := by rw [hstep]
        have hoff := seq_chunk_step_offsets A E env useCk resume hasState
          hb elapsed N st k
        have hcum := seq_chunk_step_c10_cum A E env useCk resume hasState
          hb elapsed N st k c₀ (hinv.2.2.2.2.2 k (by omega)) hok
        have hcomp : ∀ j, k + 1 ≤ j →
            (j ∈ st'.completed ↔ j ∈ st.completed) := by
          intro j hj
          have := seq_chunk_step_completed A E env useCk resume hasState
            hb elapsed N st k j (by omega)
          rw [hstep] at this
          exact this
        rw [hstep] at hoff hcum
        have hinv' := seq_c10_inv_next A E env useCk resume c₀ N k st st'
          (by omega) hinv hoff hcum.1 hcum.2 hcomp
        exact ih (k + 1) st' (by omega) hinv' hrun

/-! ## Helper lemmas: overlapped runner, failure-free canonical run -/

theorem iw_go_ok (A E : Type) (gen : ℕ → GenOutcome A E)
    (elapsed : ℕ → ℕ) :
    ∀ (n k : ℕ), (∀ i, k ≤ i → i < k + n → (gen i).failure = none) →
      iw_go A E gen elapsed n k
        = (((List.range' k n).map (fun i => OMsg.startM i ::
            ((gen i).yields.map (OMsg.audioM i) ++
              [OMsg.doneM i (elapsed i)]))).flatten, []) := by
  intro n
  induction n with
  | zero => intro k _; simp [iw_go]
  | succ n ih =>
    intro k hfail
    have hk : (gen k).failure = none := hfail k (by omega) (by omega)
    rw [iw_go]
    simp only [hk]
    rw [ih (k + 1) (fun i h1 h2 => hfail i (by omega) (by omega))]
    rw [List.range'_succ]
    simp

theorem canonical_msgs_facts (A E : Type) (gen : ℕ → GenOutcome A E)
    (elapsed : ℕ → ℕ) (N : ℕ) :
    ∀ m ∈ (((List.range' 0 N).map (fun i => OMsg.startM i ::
        ((gen i).yields.map (OMsg.audioM i) ++
          [OMsg.doneM i (elapsed i)]))).flatten : List (OMsg A)),
      OMsgIdxLt N A m ∧ m ≠ OMsg.endM := by
  intro m hm
  obtain ⟨l, hl, hml⟩ := List.mem_flatten.mp hm
  obtain ⟨i, hi, rfl⟩ := List.mem_map.mp hl
  have hiN : i < N := by
    have := List.mem_range'_1.mp hi
    omega
  rcases List.mem_cons.mp hml with rfl | hml'
  · exact ⟨hiN, by simp⟩
  · rcases List.mem_append.mp hml' with h | h
    · obtain ⟨a, _, rfl⟩ := List.mem_map.mp h
      exact ⟨hiN, by simp⟩
    · rw [List.mem_singleton.mp h]
      exact ⟨hiN, by simp⟩

theorem convert_worker_ok (A E : Type) (f : A → List Int)
    (a2iE : A → Except E (List Int)) (ha2i : ∀ a, a2iE a = .ok (f a)) :
    ∀ msgs : List (OMsg A), OMsg.endM ∉ msgs →
      convert_worker A E a2iE (msgs ++ [OMsg.endM])
        = (msgs.map (omsg_convert A f) ++ [OMsg.endM], []) := by
  intro msgs
  induction msgs with
  | nil => intro _; simp [convert_worker, omsg_convert]
  | cons m rest ih =>
    intro hne
    have hm : m ≠ OMsg.endM := by
      intro h
      exact hne (by simp [h])
    have hrest : OMsg.endM ∉ rest := fun h => hne (by simp [h])
    cases m with
    | endM => exact absurd rfl hm
    | startM i =>
      simp only [List.cons_append, convert_worker, List.append_eq,
        ih hrest, omsg_convert, List.map_cons]
    | doneM i ms =>
      simp only [List.cons_append, convert_worker, List.append_eq,
        ih hrest, omsg_convert, List.map_cons]
    | audioM i a =>
      simp only [List.cons_append, convert_worker, List.append_eq,
        ha2i a, ih hrest, omsg_convert, List.map_cons]

theorem ctrl_audio_run (E : Type) (sched : ℕ → ℕ) (N : ℕ) (i : ℕ)
    (hi : i < N) :
    ∀ (ps : List (List Int)) (rest : List (OMsg (List Int))) (t : ℕ)
      (st : CtrlSt), st.started.getD i false = true →
      controller_go E [] sched N ((ps.map (OMsg.audioM i)) ++ rest) t st
        = controller_go E [] sched N rest (t + ps.length)
          { st with
            sink := st.sink ++ ps.flatten
            cumulative := st.cumulative + (ps.map List.length).sum
            audioTrace := st.audioTrace ++ ps.map (fun p => (i, p)) } := by
  intro ps
  induction ps with
  | nil =>
    intro rest t st _
    simp
  | cons p pr ih =>
    intro rest t st hst
    rw [List.map_cons, List.cons_append, controller_go]
    simp only [if_neg (by omega : ¬ N ≤ i), hst, if_pos rfl]
    rw [ih rest (t + 1) _ (by simpa using hst)]
    have ht : t + 1 + pr.length = t + (p :: pr).length := by
      simp only [List.length_cons]
      omega
    rw [ht]
    congr 1
    · simp only [List.map_cons, List.sum_cons, List.flatten_cons]
      simp [Nat.add_assoc, List.append_assoc, Function.comp]
    all_goals
      intro e tail n h _
      cases h

theorem ctrl_group (E : Type) (sched : ℕ → ℕ) (N : ℕ) (i : ℕ) (ms : ℕ)
    (hi : i < N) :
    ∀ (ps : List (List Int)) (rest : List (OMsg (List Int))) (t : ℕ)
      (st : CtrlSt), st.started.length = N →
      controller_go E [] sched N
          ((OMsg.startM i :: (ps.map (OMsg.audioM i) ++
            [OMsg.doneM i ms])) ++ rest) t st
        = controller_go E [] sched N rest (t + ps.length + 2)
          { offsets := st.offsets.set i st.cumulative
            started := st.started.set i true
            cumulative := st.cumulative + (ps.map List.length).sum
            sink := st.sink ++ ps.flatten
            times := st.times ++ [ms]
            startOrder := st.startOrder ++ [i]
            audioTrace := st.audioTrace ++ ps.map (fun p => (i, p))
            processed := st.processed + 1 } := by
  intro ps rest t st hlen
  rw [List.cons_append, controller_go]
  simp only [if_neg (by omega : ¬ N ≤ i)]
  rw [List.append_assoc]
  rw [ctrl_audio_run E sched N i hi ps ([OMsg.doneM i ms] ++ rest) (t + 1)
    _ (by simp [List.getD_eq_getElem?_getD, List.getElem?_set,
      if_pos rfl, hlen, hi])]
  rw [List.singleton_append, controller_go]
  simp only [if_neg (by omega : ¬ N ≤ i)]
  rotate_left
  · intro e tail n h _
    cases h
  · intro e tail n h _
    cases h
  congr 1
  omega

theorem controller_run_ok (A E : Type) (gen : ℕ → GenOutcome A E)
    (f : A → List Int) (elapsed : ℕ → ℕ) (sched : ℕ → ℕ) (N : ℕ) :
    ∀ (n k : ℕ) (st : CtrlSt) (t : ℕ), k + n = N →
      ctrl_inv A E gen f N k st →
      ∃ stf, controller_go E [] sched N
          ((((List.range' k n).map (fun i => OMsg.startM i ::
            (((gen i).yields.map f).map (OMsg.audioM i) ++
              [OMsg.doneM i (elapsed i)]))).flatten) ++ [OMsg.endM]) t st
        = .ok stf ∧ ctrl_inv A E gen f N N stf := by
  intro n
  induction n with
  | zero =>
    intro k st t hkn hinv
    have hk : k = N := by omega
    subst hk
    refine ⟨st, ?_, hinv⟩
    simp [controller_go]
  | succ n ih =>
    intro k st t hkn hinv
    obtain ⟨hlen, hlo, hhi, hcum, hsink, hstl, hord, htr, hproc⟩ := hinv
    have hkN : k < N := by omega
    rw [List.range'_succ, List.map_cons, List.flatten_cons,
      List.append_assoc]
    rw [ctrl_group E sched N k (elapsed k) hkN ((gen k).yields.map f) _ t
      st hstl]
    apply ih (k + 1) _ (t + ((gen k).yields.map f).length + 2) (by omega)
    refine ⟨?_, ?_, ?_, ?_, ?_, ?_, ?_, ?_, ?_⟩
    · simp [hlen]
    · intro i hi
      dsimp only
      rw [List.getElem?_set]
      by_cases hik : k = i
      · subst hik
        rw [if_pos rfl, if_pos (by omega), hcum]
      · rw [if_neg hik]
        exact hlo i (by omega)
    · intro i h1 h2
      dsimp only
      rw [List.getElem?_set, if_neg (by omega)]
      exact hhi i (by omega) h2
    · dsimp only
      rw [hcum, Finset.sum_range_succ, ovl_written, List.length_flatten]
    · dsimp only
      rw [List.length_append, hsink, hcum, List.length_flatten]
    · simp [hstl]
    · dsimp only
      rw [hord, List.range'_1_concat]
      simp
    · dsimp only
      rw [htr, List.range'_1_concat]
      simp
    · dsimp only
      omega

theorem overlap_canonical (A E : Type) (gen : ℕ → GenOutcome A E)
    (a2iE : A → Except E (List Int)) (f : A → List Int)
    (elapsed : ℕ → ℕ) (sched : ℕ → ℕ) (N : ℕ)
    (hgen : ∀ i, i < N → (gen i).failure = none)
    (ha2i : ∀ a, a2iE a = .ok (f a)) :
    ∃ stf, run_overlap3_pipeline A E gen a2iE elapsed sched N
        = (.ok stf, true) ∧ ctrl_inv A E gen f N N stf := by
  have hiw := iw_go_ok A E gen elapsed N 0
    (fun i h1 h2 => hgen i (by omega))
  have hne : OMsg.endM ∉ (((List.range' 0 N).map (fun i =>
      OMsg.startM i :: ((gen i).yields.map (OMsg.audioM i) ++
        [OMsg.doneM i (elapsed i)]))).flatten : List (OMsg A)) := by
    intro hmem
    exact (canonical_msgs_facts A E gen elapsed N _ hmem).2 rfl
  have hcv := convert_worker_ok A E f a2iE ha2i _ hne
  have hmapconv : (((List.range' 0 N).map (fun i =>
      OMsg.startM i :: ((gen i).yields.map (OMsg.audioM i) ++
        [OMsg.doneM i (elapsed i)]))).flatten).map (omsg_convert A f)
      = ((List.range' 0 N).map (fun i => OMsg.startM i ::
        (((gen i).yields.map f).map (OMsg.audioM i) ++
          [OMsg.doneM i (elapsed i)]))).flatten := by
    rw [List.map_flatten, List.map_map]
    congr 1
    apply List.map_congr_left
    intro i _
    simp only [Function.comp, List.map_cons, List.map_append,
      List.map_map, omsg_convert, List.map_cons]
    rfl
  have hinit : ctrl_inv A E gen f N 0 (ctrl_init N) := by
    refine ⟨by simp [ctrl_init], by omega, ?_, by simp [ctrl_init],
      by simp [ctrl_init], by simp [ctrl_init], by simp [ctrl_init],
      by simp [ctrl_init], by simp [ctrl_init]⟩
    intro i _ h2
    simp [ctrl_init, List.getElem?_replicate, h2]
  obtain ⟨stf, hrun, hinv⟩ := controller_run_ok A E gen f elapsed sched N
    N 0 (ctrl_init N) 0 (by omega) hinit
  refine ⟨stf, ?_, hinv⟩
  rw [run_overlap3_pipeline]
  simp only [inference_worker, hiw, hcv, hmapconv]
  rw [List.nil_append]
  rw [hrun]

theorem chain_le_of_entries (l : List ℕ) (N : ℕ) (g : ℕ → ℕ)
    (hlen : l.length = N) (hent : ∀ i, i < N → l[i]? = some (g i))
    (hmono : ∀ i, g i ≤ g (i + 1)) : List.Chain' (· ≤ ·) l := by
  apply List.chain'_iff_get.mpr
  intro i hi
  have h1 : i < N := by omega
  have h2 : i + 1 < N := by omega
  have e1 := hent i h1
  have e2 := hent (i + 1) h2
  rw [List.getElem?_eq_getElem (by omega)] at e1
  rw [List.getElem?_eq_getElem (by omega)] at e2
  injection e1 with e1
  injection e2 with e2
  simp only [List.get_eq_getElem]
  rw [e1, e2]
  exact hmono i

/-! ## C3: ordering in the overlapped pipeline -/

/-- C3: in every failure-free run of the overlapped pipeline over `N`
chunks, the controller observes exactly one `start` message per chunk
index, in index order `0..N-1` with no duplicates and no gaps, and the
audio payloads it writes are exactly the chunks' converted yields,
concatenated in chunk-index order with each chunk's buffers in the order
the backend yielded them (the inference stage is sequential and both
queues are FIFO). -/
theorem c3_overlap_ordering (A E : Type) (gen : ℕ → GenOutcome A E)
    (a2iE : A → Except E (List Int)) (f : A → List Int)
    (elapsed sched : ℕ → ℕ) (N : ℕ)
    (hgen : ∀ i, i < N → (gen i).failure = none)
    (ha2i : ∀ a, a2iE a = .ok (f a)) :
    ∃ stf, (run_overlap3_pipeline A E gen a2iE elapsed sched N).1
        = .ok stf ∧
      stf.startOrder = List.range N ∧
      stf.audioTrace = ((List.range N).map (fun j =>
        ((gen j).yields.map f).map (fun p => (j, p)))).flatten := by
  obtain ⟨stf, hrun, hinv⟩ := overlap_canonical A E gen a2iE f elapsed
    sched N hgen ha2i
  refine ⟨stf, by rw [hrun], ?_, ?_⟩
  · rw [hinv.2.2.2.2.2.2.1, List.range_eq_range']
  · rw [hinv.2.2.2.2.2.2.2.1, List.range_eq_range']

/-- Witness for C3: ten one-buffer chunks; the observed `start` indices
are exactly `0..9` in order. -/
theorem c3_overlap_ordering_witness :
    ((run_overlap3_pipeline (List Int) ℕ
        (fun i => ⟨[[Int.ofNat i]], none⟩) (fun a => .ok a)
        (fun _ => 1) (fun _ => 0) 10).1).map (fun st => st.startOrder)
      = Except.ok (List.range 10) := by
  obtain ⟨stf, hrun, hord, -⟩ := c3_overlap_ordering (List Int) ℕ
    (fun i => ⟨[[Int.ofNat i]], none⟩) (fun a => .ok a) id
    (fun _ => 1) (fun _ => 0) 10 (fun i _ => rfl) (fun a => rfl)
  rw [hrun]
  simp [Except.map, hord]

theorem c10_of_prefix (N : ℕ) (w : ℕ → ℕ) (offsets : List ℕ)
    (total sinkLen : ℕ) (hlen : offsets.length = N)
    (hent : ∀ i, i < N → offsets[i]? = some (∑ j ∈ Finset.range i, w j))
    (htot : total = ∑ j ∈ Finset.range N, w j)
    (hsink : sinkLen = total) : C10Inv N w offsets total sinkLen := by
  refine ⟨hlen, hent, ?_, ?_, htot, hsink, ?_⟩
  · intro h0
    simpa using hent 0 h0
  · exact chain_le_of_entries offsets N
      (fun i => ∑ j ∈ Finset.range i, w j) hlen hent
      (fun i => by
        dsimp only
        rw [Finset.sum_range_succ]
        exact Nat.le_add_right _ _)
  · intro i v hi hv
    have h := hv.symm.trans (hent i hi)
    injection h with h
    rw [h, htot]
    exact Finset.sum_le_sum_of_subset
      (Finset.range_subset.mpr (Nat.le_of_lt hi))

theorem seq_init_c10 (A E : Type) (env : SeqEnv A E) (useCk resume : Bool)
    (c₀ : Finset ℕ) (N : ℕ) :
    seq_c10_inv A E env useCk resume c₀ N 0 (seq_init N c₀) := by
  refine ⟨?_, ?_, ?_, ?_, ?_, ?_⟩
  · simp [seq_init]
  · intro i hi
    exact absurd hi (Nat.not_lt_zero i)
  · intro i _ hiN
    simp [seq_init, List.getElem?_replicate, hiN]
  · simp [seq_init]
  · simp [seq_init]
  · intro j _
    simp [seq_init]

/-! ## C10: the sample-offsets invariant in both pipelines -/

/-- C10: in every normally returning run of the sequential pipeline, and
in every failure-free run of the overlapped pipeline, the returned
`chunk_sample_offsets` has one entry per chunk, each entry is the prefix
sum of the per-chunk sample counts (the number of samples written to the
sink before that chunk's audio began), the first entry is `0` when a chunk
exists, entries are non-decreasing, and `total_samples` equals the final
cumulative count, equals the number of samples written to the sink, and
bounds every entry. -/
theorem c10_sample_offsets_invariant (A E : Type) (env : SeqEnv A E)
    (useCk resume hasState : Bool) (hb : ℕ → Bool)
    (gen : ℕ → GenOutcome A E) (a2iE : A → Except E (List Int))
    (f : A → List Int) (eS eO sched : ℕ → ℕ) (N : ℕ) (c₀ : Finset ℕ)
    (hseq : (run_sequential_pipeline A E env useCk resume hasState hb eS
      N c₀).2 = none)
    (hgen : ∀ i, i < N → (gen i).failure = none)
    (ha2i : ∀ a, a2iE a = .ok (f a)) :
    C10Inv N (seq_written A E env useCk resume c₀)
      (seq_result (run_sequential_pipeline A E env useCk resume hasState
        hb eS N c₀).1).chunk_sample_offsets
      (seq_result (run_sequential_pipeline A E env useCk resume hasState
        hb eS N c₀).1).total_samples
      (run_sequential_pipeline A E env useCk resume hasState hb eS N
        c₀).1.sink.length ∧
    ∃ stf, (run_overlap3_pipeline A E gen a2iE eO sched N).1 = .ok stf ∧
      C10Inv N (ovl_written A E gen f) stf.offsets stf.cumulative
        stf.sink.length := by
  constructor
  · have hinv := seq_go_c10 A E env useCk resume hasState hb eS N c₀ N 0
      (seq_init N c₀) (by omega)
      (seq_init_c10 A E env useCk resume c₀ N) hseq
    obtain ⟨hlen, hlo, -, hc, hs, -⟩ := hinv
    exact c10_of_prefix N _ _ _ _ hlen hlo hc hs
  · obtain ⟨stf, hrun, hinv⟩ := overlap_canonical A E gen a2iE f eO sched
      N hgen ha2i
    obtain ⟨hlen, hlo, -, hc, hs, -⟩ := hinv
    exact ⟨stf, by rw [hrun], c10_of_prefix N _ _ _ _ hlen hlo hc hs⟩

/-- Witness for C10: three one-buffer chunks through both pipelines. -/
theorem c10_sample_offsets_invariant_witness :
    C10Inv 3 (seq_written (List Int) ℕ
        ⟨fun i => ⟨[[Int.ofNat i]], none⟩, fun _ => none, id⟩ false false
        ∅)
      (seq_result (run_sequential_pipeline (List Int) ℕ
        ⟨fun i => ⟨[[Int.ofNat i]], none⟩, fun _ => none, id⟩ false false
        false (fun _ => false) (fun _ => 1) 3 ∅).1).chunk_sample_offsets
      (seq_result (run_sequential_pipeline (List Int) ℕ
        ⟨fun i => ⟨[[Int.ofNat i]], none⟩, fun _ => none, id⟩ false false
        false (fun _ => false) (fun _ => 1) 3 ∅).1).total_samples
      (run_sequential_pipeline (List Int) ℕ
        ⟨fun i => ⟨[[Int.ofNat i]], none⟩, fun _ => none, id⟩ false false
        false (fun _ => false) (fun _ => 1) 3 ∅).1.sink.length ∧
    ∃ stf, (run_overlap3_pipeline (List Int) ℕ
        (fun i => ⟨[[Int.ofNat i]], none⟩) (fun a => .ok a) (fun _ => 1)
        (fun _ => 0) 3).1 = .ok stf ∧
      C10Inv 3 (ovl_written (List Int) ℕ
          (fun i => ⟨[[Int.ofNat i]], none⟩) id) stf.offsets
        stf.cumulative stf.sink.length :=
  c10_sample_offsets_invariant (List Int) ℕ
    ⟨fun i => ⟨[[Int.ofNat i]], none⟩, fun _ => none, id⟩ false false
    false (fun _ => false) (fun i => ⟨[[Int.ofNat i]], none⟩)
    (fun a => .ok a) id (fun _ => 1) (fun _ => 1) (fun _ => 0) 3 ∅
    (by rfl) (fun i _ => rfl) (fun a => rfl)

theorem iw_go_idxlt (A E : Type) (gen : ℕ → GenOutcome A E)
    (elapsed : ℕ → ℕ) :
    ∀ (n k N : ℕ), k + n ≤ N →
      ∀ m ∈ (iw_go A E gen elapsed n k).1, OMsgIdxLt N A m := by
  intro n
  induction n with
  | zero =>
    intro k N _ m hm
    simp [iw_go] at hm
  | succ n ih =>
    intro k N hkN m hm
    have hk : k < N := by omega
    rw [iw_go] at hm
    cases hg : (gen k).failure with
    | some e =>
      rw [hg] at hm
      simp only [List.mem_cons, List.mem_map] at hm
      rcases hm with rfl | ⟨a, -, rfl⟩
      · exact hk
      · exact hk
    | none =>
      rw [hg] at hm
      simp only [List.cons_append, List.append_assoc, List.mem_cons,
        List.mem_append, List.mem_map, List.mem_singleton] at hm
      rcases hm with rfl | ⟨a, -, rfl⟩ | rfl | hm
      · exact hk
      · exact hk
      · exact hk
      · rcases hm with hm | hm
        · simp at hm
        · exact ih (k + 1) N (by omega) m hm

theorem iw_go_first_fail (A E : Type) (gen : ℕ → GenOutcome A E)
    (elapsed : ℕ → ℕ) (j : ℕ) (e : E) (he : (gen j).failure = some e) :
    ∀ (n k : ℕ), k ≤ j → j < k + n →
      (∀ i, k ≤ i → i < j → (gen i).failure = none) →
      (iw_go A E gen elapsed n k).2 = [e] := by
  intro n
  induction n with
  | zero =>
    intro k h1 h2 _
    omega
  | succ n ih =>
    intro k h1 h2 hpre
    by_cases hkj : k = j
    · subst hkj
      simp [iw_go, he]
    · have hk : (gen k).failure = none := hpre k (le_refl k) (by omega)
      simp only [iw_go, hk]
      exact ih (k + 1) (by omega) (by omega)
        (fun i hi1 hi2 => hpre i (by omega) hi2)

theorem convert_worker_sentinel (A E : Type)
    (a2iE : A → Except E (List Int)) :
    ∀ msgs : List (OMsg A), OMsg.endM ∈ msgs →
      ∃ pre, (convert_worker A E a2iE msgs).1 = pre ++ [OMsg.endM] := by
  intro msgs
  induction msgs with
  | nil =>
    intro h
    simp at h
  | cons m rest ih =>
    intro hmem
    cases m with
    | endM => exact ⟨[], by simp [convert_worker]⟩
    | startM i =>
      have hrest : OMsg.endM ∈ rest := by
        rcases List.mem_cons.mp hmem with h | h
        · simp at h
        · exact h
      obtain ⟨pre, hp⟩ := ih hrest
      exact ⟨OMsg.startM i :: pre, by simp [convert_worker, hp]⟩
    | doneM i ms =>
      have hrest : OMsg.endM ∈ rest := by
        rcases List.mem_cons.mp hmem with h | h
        · simp at h
        · exact h
      obtain ⟨pre, hp⟩ := ih hrest
      exact ⟨OMsg.doneM i ms :: pre, by simp [convert_worker, hp]⟩
    | audioM i a =>
      have hrest : OMsg.endM ∈ rest := by
        rcases List.mem_cons.mp hmem with h | h
        · simp at h
        · exact h
      cases ha : a2iE a with
      | error r => exact ⟨[], by simp [convert_worker, ha]⟩
      | ok p =>
        obtain ⟨pre, hp⟩ := ih hrest
        exact ⟨OMsg.audioM i p :: pre, by simp [convert_worker, ha, hp]⟩

theorem convert_worker_idxlt (A E : Type)
    (a2iE : A → Except E (List Int)) (N : ℕ) :
    ∀ msgs : List (OMsg A), (∀ m ∈ msgs, OMsgIdxLt N A m) →
      ∀ m ∈ (convert_worker A E a2iE msgs).1,
        OMsgIdxLt N (List Int) m := by
  intro msgs
  induction msgs with
  | nil =>
    intro _ m hm
    simp [convert_worker] at hm
  | cons m0 rest ih =>
    intro hval m hm
    have hvr : ∀ m' ∈ rest, OMsgIdxLt N A m' :=
      fun m' hm' => hval m' (by simp [hm'])
    cases m0 with
    | endM =>
      simp only [convert_worker, List.mem_singleton] at hm
      subst hm
      trivial
    | startM i =>
      simp only [convert_worker, List.mem_cons] at hm
      rcases hm with rfl | h
      · exact hval (OMsg.startM i) (by simp)
      · exact ih hvr m h
    | doneM i ms =>
      simp only [convert_worker, List.mem_cons] at hm
      rcases hm with rfl | h
      · exact hval (OMsg.doneM i ms) (by simp)
      · exact ih hvr m h
    | audioM i a =>
      rw [convert_worker] at hm
      cases ha : a2iE a with
      | error r =>
        rw [ha] at hm
        simp only [List.mem_singleton] at hm
        subst hm
        trivial
      | ok p =>
        rw [ha] at hm
        simp only [List.mem_cons] at hm
        rcases hm with rfl | h
        · exact hval (OMsg.audioM i a) (by simp)
        · exact ih hvr m h

theorem controller_raise (E : Type) (sched : ℕ → ℕ) (N : ℕ) (e : E)
    (tl : List E) :
    ∀ (msgs : List (OMsg (List Int))) (t : ℕ) (st : CtrlSt),
      (∀ m ∈ msgs, OMsgIdxLt N (List Int) m) → OMsg.endM ∈ msgs →
      controller_go E (e :: tl) sched N msgs t st
        = .error (.workerErr e) := by
  intro msgs
  induction msgs with
  | nil =>
    intro t st _ hend
    simp at hend
  | cons m rest ih =>
    intro t st hval hend
    have hvr : ∀ m' ∈ rest, OMsgIdxLt N (List Int) m' :=
      fun m' hm' => hval m' (by simp [hm'])
    rw [controller_go.eq_def]
    cases hs : sched t with
    | succ p => simp only
    | zero =>
      simp only
      cases m with
      | endM => simp only
      | startM i =>
        simp only
        have hi : i < N := hval (OMsg.startM i) (by simp)
        rw [if_neg (by omega : ¬ N ≤ i)]
        have hend2 : OMsg.endM ∈ rest := by
          rcases List.mem_cons.mp hend with h | h
          · simp at h
          · exact h
        exact ih (t + 1) _ hvr hend2
      | doneM i ms =>
        simp only
        have hi : i < N := hval (OMsg.doneM i ms) (by simp)
        rw [if_neg (by omega : ¬ N ≤ i)]
        have hend2 : OMsg.endM ∈ rest := by
          rcases List.mem_cons.mp hend with h | h
          · simp at h
          · exact h
        exact ih (t + 1) _ hvr hend2
      | audioM i p =>
        simp only
        have hi : i < N := hval (OMsg.audioM i p) (by simp)
        rw [if_neg (by omega : ¬ N ≤ i)]
        have hend2 : OMsg.endM ∈ rest := by
          rcases List.mem_cons.mp hend with h | h
          · simp at h
          · exact h
        exact ih (t + 1) _ hvr hend2

/-! ## C8: error capture and re-raise in the overlapped pipeline -/

/-- C8: with an inference failure at the first failing chunk `k`, the
exception is captured into the shared error channel and the inference
stage still emits its `end` sentinel; a conversion exception is likewise
captured with the conversion stage still emitting its sentinel (stated for
every failing payload, and the conversion output always ends in the
sentinel); the controller re-raises the first captured error (the channel
is checked before each queue read and once after the loop), and both
worker threads are joined with a timeout on every exit path. -/
theorem c8_overlap_error_capture (A E : Type) (gen : ℕ → GenOutcome A E)
    (a2iE : A → Except E (List Int)) (elapsed sched : ℕ → ℕ) (N k : ℕ)
    (e : E) (hk : k < N) (he : (gen k).failure = some e)
    (hpre : ∀ i, i < k → (gen i).failure = none) :
    (inference_worker A E gen elapsed N).2 = [e] ∧
    (inference_worker A E gen elapsed N).1.getLast? = some OMsg.endM ∧
    (∀ (i : ℕ) (a : A) (rest : List (OMsg A)) (r : E),
      a2iE a = .error r →
      convert_worker A E a2iE (OMsg.audioM i a :: rest)
        = ([OMsg.endM], [r])) ∧
    (convert_worker A E a2iE
        (inference_worker A E gen elapsed N).1).1.getLast?
      = some OMsg.endM ∧
    (run_overlap3_pipeline A E gen a2iE elapsed sched N).1
      = .error (.workerErr e) ∧
    (run_overlap3_pipeline A E gen a2iE elapsed sched N).2 = true := by
  have hiw2 : (inference_worker A E gen elapsed N).2 = [e] := by
    show (iw_go A E gen elapsed N 0).2 = [e]
    exact iw_go_first_fail A E gen elapsed k e he N 0 (Nat.zero_le k)
      (by omega) (fun i _ h2 => hpre i h2)
  have hiw1 : (inference_worker A E gen elapsed N).1
      = (iw_go A E gen elapsed N 0).1 ++ [OMsg.endM] := rfl
  have hlast1 : (inference_worker A E gen elapsed N).1.getLast?
      = some OMsg.endM := by
    rw [hiw1, List.getLast?_append_of_ne_nil _ (by simp)]
    simp
  have hvalin : ∀ m ∈ (inference_worker A E gen elapsed N).1,
      OMsgIdxLt N A m := by
    intro m hm
    rw [hiw1] at hm
    rcases List.mem_append.mp hm with h | h
    · exact iw_go_idxlt A E gen elapsed N 0 N (by omega) m h
    · rw [List.mem_singleton] at h
      subst h
      trivial
  have hendin : OMsg.endM ∈ (inference_worker A E gen elapsed N).1 := by
    rw [hiw1]
    exact List.mem_append_right _ (by simp)
  obtain ⟨pre, hp⟩ := convert_worker_sentinel A E a2iE _ hendin
  have hcvlast : (convert_worker A E a2iE
      (inference_worker A E gen elapsed N).1).1.getLast?
      = some OMsg.endM := by
    rw [hp, List.getLast?_append_of_ne_nil _ (by simp)]
    simp
  have hendcv : OMsg.endM ∈ (convert_worker A E a2iE
      (inference_worker A E gen elapsed N).1).1 := by
    rw [hp]
    exact List.mem_append_right _ (by simp)
  have hvalcv := convert_worker_idxlt A E a2iE N _ hvalin
  have hrun : (run_overlap3_pipeline A E gen a2iE elapsed sched N).1
      = .error (.workerErr e) := by
    show controller_go E ((inference_worker A E gen elapsed N).2 ++
        (convert_worker A E a2iE
          (inference_worker A E gen elapsed N).1).2)
        sched N (convert_worker A E a2iE
          (inference_worker A E gen elapsed N).1).1 0 (ctrl_init N)
      = .error (.workerErr e)
    rw [hiw2, List.singleton_append]
    exact controller_raise E sched N e _ _ 0 (ctrl_init N) hvalcv hendcv
  refine ⟨hiw2, hlast1, ?_, hcvlast, hrun, rfl⟩
  intro i a rest r hr
  simp [convert_worker, hr]

/-- Witness for C8: three chunks with an inference failure on chunk `1`;
the run re-raises the captured error and the joins were attempted. -/
theorem c8_overlap_error_capture_witness :
    (run_overlap3_pipeline (List Int) ℕ
        (fun i => if i = 1 then ⟨[], some 7⟩ else ⟨[[0]], none⟩)
        (fun a => .ok a) (fun _ => 1) (fun _ => 0) 3).1
      = .error (.workerErr 7) ∧
    (run_overlap3_pipeline (List Int) ℕ
        (fun i => if i = 1 then ⟨[], some 7⟩ else ⟨[[0]], none⟩)
        (fun a => .ok a) (fun _ => 1) (fun _ => 0) 3).2 = true :=
  ⟨(c8_overlap_error_capture (List Int) ℕ
      (fun i => if i = 1 then ⟨[], some 7⟩ else ⟨[[0]], none⟩)
      (fun a => .ok a) (fun _ => 1) (fun _ => 0) 3 1 7 (by decide) rfl
      (fun i hi => by
        have h0 : i = 0 := by omega
        subst h0
        rfl)).2.2.2.2.1,
   (c8_overlap_error_capture (List Int) ℕ
      (fun i => if i = 1 then ⟨[], some 7⟩ else ⟨[[0]], none⟩)
      (fun a => .ok a) (fun _ => 1) (fun _ => 0) 3 1 7 (by decide) rfl
      (fun i hi => by
        have h0 : i = 0 := by omega
        subst h0
        rfl)).2.2.2.2.2⟩
